import Mathlib

/-!
The in-memory product store of `product-api/data/products.go`.

A shallow embedding of the package-level slice `productList` and of the
functions that read and write it: `findProduct`, `getNextID`, `AddProduct`,
`UpdateProduct`, `DeleteProduct` and `GetProductByID`, and of the validation
of a record, `Validate` and `validateSKU`.

Modelling decisions.

* `productList` is a slice of pointers, and `UpdateProduct` writes through
  the pointer it is given and stores that very pointer.  The state is
  therefore a memory of records (`Store.heap`, one record per address) and the
  slice of addresses (`Store.productList`); what a reader of the collection
  sees is `Store.records`.  A `*Product` is an address; nil is not modelled,
  and neither are writes that a client makes on its own through a pointer it
  holds.
* Every function takes the current state and, when it writes, returns the
  new one.
* Go's `int` is taken at 64 bits: ids are integers and `lp.ID + 1` wraps
  around (`wrapInt`).
* A `float32` price is modelled by the rational number it denotes.
* A run-time panic (index or slice bounds out of range) is an `Except.error`;
  a returned Go `error` value is an `Option Error` next to the results, as in
  the Go signatures.
* `time.Now().UTC().String()` in the initial value of `productList` is not a
  function of the program text; the four readings are arguments of
  `productList` and `initialStore`.
* `Validate` and `validateSKU` call two libraries.  Of `regexp`, the pattern
  language is restricted to what the pattern of `validateSKU` uses (literal
  characters and `[lo-hi]+`), with the leftmost-first, greedy matching of the
  package and the non-overlapping scan of `FindAllString`.  Of
  `go-playground/validator`, the tags `required` (the string is not empty),
  `gt=0` and the registered `sku` are run field by field in the order of the
  struct, and each field reports its first failing tag.
-/

namespace Data

/-- The struct `Product`. -/
structure Product where
  ID : Int
  Name : String
  Description : String
  Price : Rat
  SKU : String
  CreatedOn : String
  UpdatedOn : String
  DeletedOn : String
  deriving DecidableEq, Repr

/-- The values of Go's `error` interface that the store returns. -/
inductive Error where
  | ErrProductNotFound
  deriving DecidableEq, Repr

/-- The run-time panics of indexing and slicing. -/
inductive Panic where
  | indexOutOfRange
  | sliceBoundsOutOfRange
  deriving DecidableEq, Repr

deriving instance DecidableEq for Except

/-- A non-nil `*Product`: the address of a record. -/
abbrev Ptr := Nat

/-- The state of the package: the records in memory, one at each address, the
addresses handed out so far (those below `next`), and the package variable
`productList`, a slice of pointers. -/
structure Store where
  heap : Ptr → Product
  next : Ptr
  productList : List Ptr

/-- The collection as a reader sees it: the records that the pointers of
`productList` point to, in sequence order. -/
def Store.records (s : Store) : List Product :=
  s.productList.map s.heap

/-- The memory after the record at address `a` is overwritten by `v`. -/
def write (heap : Ptr → Product) (a : Ptr) (v : Product) : Ptr → Product :=
  fun b => if b = a then v else heap b

/-- An address above all those of a slice. -/
def bound : List Ptr → Ptr
  | [] => 0
  | a :: t => max (a + 1) (bound t)

/-- The address of a newly allocated record: one that was not handed out
before and that `productList` does not hold. -/
def Store.fresh (s : Store) : Ptr :=
  max s.next (bound s.productList)

/-- The value of a 64-bit `int` computation whose exact result is `x`. -/
def wrapInt (x : Int) : Int :=
  (x + 9223372036854775808) % 18446744073709551616 - 9223372036854775808

/-- The expression `s[i]` read: panics unless `0 ≤ i < len(s)`. -/
def index {α : Type} (s : List α) (i : Int) : Except Panic α :=
  if 0 ≤ i then
    match s[i.toNat]? with
    | some a => .ok a
    | none => .error .indexOutOfRange
  else .error .indexOutOfRange

/-- The assignment `s[i] = v`: panics unless `0 ≤ i < len(s)`. -/
def setIndex {α : Type} (s : List α) (i : Int) (v : α) : Except Panic (List α) :=
  if 0 ≤ i ∧ i < s.length then .ok (s.set i.toNat v)
  else .error .indexOutOfRange

/-- The expression `s[:hi]`: panics unless `0 ≤ hi ≤ len(s)` (Go allows `hi` up
to the capacity; the length is the stricter bound). -/
def sliceTo {α : Type} (s : List α) (hi : Int) : Except Panic (List α) :=
  if 0 ≤ hi ∧ hi ≤ s.length then .ok (s.take hi.toNat)
  else .error .sliceBoundsOutOfRange

/-- The expression `s[lo:]`: panics unless `0 ≤ lo ≤ len(s)`. -/
def sliceFrom {α : Type} (s : List α) (lo : Int) : Except Panic (List α) :=
  if 0 ≤ lo ∧ lo ≤ s.length then .ok (s.drop lo.toNat)
  else .error .sliceBoundsOutOfRange

/-- The loop `for i, p := range productList` of `findProduct`, entered at
index `i` with the pointers from `i` on still to visit; `p.ID` is read in
memory. -/
def findProductFrom (heap : Ptr → Product) (id : Int) :
    List Ptr → Int → Option Ptr × Int × Option Error
  | [], _ => (none, -1, some .ErrProductNotFound)
  | p :: rest, i =>
    if (heap p).ID = id then (some p, i, none)
    else findProductFrom heap id rest (i + 1)

/-- The function `findProduct`: the pointer, its position and no error, or
`(nil, -1, ErrProductNotFound)`. -/
def findProduct (s : Store) (id : Int) : Option Ptr × Int × Option Error :=
  findProductFrom s.heap id s.productList 0

/-- The function `getNextID`: reads `productList[len(productList)-1]` and
adds one to its id, in `int`. -/
def getNextID (s : Store) : Except Panic Int := do
  let lp ← index s.productList ((s.productList.length : Int) - 1)
  pure (wrapInt ((s.heap lp).ID + 1))

/-- The function `AddProduct`.  Its parameter `p` is a copy of the argument,
a new variable: the id is written to it and its address is appended. -/
def AddProduct (s : Store) (p : Product) : Except Panic Store := do
  let id ← getNextID s
  let addr := s.fresh
  let p := { p with ID := id }
  pure { heap := write s.heap addr p
         next := addr + 1
         productList := s.productList ++ [addr] }

/-- The function `UpdateProduct`; the result is the new state and the
returned `error`.  The id is written through the pointer `p`, and `p` itself
is stored at the position found. -/
def UpdateProduct (s : Store) (id : Int) (p : Ptr) :
    Except Panic (Store × Option Error) :=
  match findProduct s id with
  | (_, _, some err) => .ok (s, some err)
  | (_, pos, none) => do
    let heap := write s.heap p { s.heap p with ID := id }
    let productList ← setIndex s.productList pos p
    pure ({ s with heap := heap, productList := productList }, none)

/-- The function `DeleteProduct`; the result is the new state and the
returned `error`. -/
def DeleteProduct (s : Store) (id : Int) : Except Panic (Store × Option Error) :=
  match findProduct s id with
  | (_, _, some err) => .ok (s, some err)
  | (_, pos, none) => do
    let front ← sliceTo s.productList pos
    let back ← sliceFrom s.productList (pos + 1)
    pure ({ s with productList := front ++ back }, none)

/-- The function `GetProductByID`: the returned pointer and `error`. -/
def GetProductByID (s : Store) (id : Int) :
    Except Panic (Option Ptr × Option Error) :=
  match findProduct s id with
  | (_, _, some _) => .ok (none, some .ErrProductNotFound)
  | (_, pos, none) => do
    let p ← index s.productList pos
    pure (some p, none)

/-- What the caller of `GetProductByID` sees: the record behind the returned
pointer, and the error. -/
def seen (s : Store) (r : Except Panic (Option Ptr × Option Error)) :
    Except Panic (Option Product × Option Error) :=
  r.map (fun x => (x.1.map s.heap, x.2))

/-- The two composite literals of the initial value of `productList`.  The
prices are the `float32` values nearest to 2.45 and 1.99; `c1 u1 c2 u2` are
the four readings of the clock. -/
def productList (c1 u1 c2 u2 : String) : List Product :=
  [ { ID := 1
      Name := "Latte"
      Description := "Frothy milky coffee"
      Price := mkRat 10276045 4194304
      SKU := "abc323"
      CreatedOn := c1
      UpdatedOn := u1
      DeletedOn := "" },
    { ID := 2
      Name := "Espresso"
      Description := "Short and string coffee without milk"
      Price := mkRat 8346665 4194304
      SKU := "xyz323"
      CreatedOn := c2
      UpdatedOn := u2
      DeletedOn := "" } ]

/-- The zero value of `Product`. -/
def zeroValue : Product :=
  { ID := 0
    Name := ""
    Description := ""
    Price := 0
    SKU := ""
    CreatedOn := ""
    UpdatedOn := ""
    DeletedOn := "" }

/-- The state at start-up: the two records of the initial value sit at the
addresses 0 and 1, and `productList` points to them in that order. -/
def initialStore (c1 u1 c2 u2 : String) : Store :=
  { heap := fun a => (productList c1 u1 c2 u2).getD a zeroValue
    next := 2
    productList := [0, 1] }

/-- One step of a client of the package: it declares a product of its own
(`alloc`), or calls one of the writing operations.  The argument of
`UpdateProduct` is a pointer the client holds: to a product it declared, or
one it got from `GetProductByID` or `GetProducts`. -/
inductive Call where
  | alloc (p : Product)
  | add (p : Product)
  | update (id : Int) (p : Ptr)
  | delete (id : Int)
  deriving DecidableEq, Repr

/-- The pointer of a call points to a record that exists. -/
def Call.valid (s : Store) : Call → Bool
  | .update _ p => decide (p < s.next)
  | _ => true

/-- The state after one step, or the panic that the call ends in. -/
def step (s : Store) : Call → Except Panic Store
  | .alloc p => .ok { s with heap := write s.heap s.fresh p, next := s.fresh + 1 }
  | .add p => AddProduct s p
  | .update id p => (UpdateProduct s id p).map Prod.fst
  | .delete id => (DeleteProduct s id).map Prod.fst

/-- The state after a sequence of steps, none of which panics. -/
def run (s : Store) : List Call → Except Panic Store
  | [] => .ok s
  | c :: cs => do
    let s' ← step s c
    run s' cs

/-- Every call of the sequence, at the state it is made in, passes a pointer
to a record that exists. -/
def validCalls (s : Store) : List Call → Bool
  | [] => true
  | c :: cs =>
    c.valid s &&
      match step s c with
      | .ok s' => validCalls s' cs
      | .error _ => true

/-- A state is reachable when some sequence of steps, each with a pointer to
an existing record, leads to it from the state at start-up.  The calls of
`UpdateProduct` and `DeleteProduct` may succeed or return
`ErrProductNotFound` (the latter leave the state as it was); a call of
`AddProduct` on the empty slice panics and leads to no state. -/
def Reachable (s : Store) : Prop :=
  ∃ c1 u1 c2 u2 calls, validCalls (initialStore c1 u1 c2 u2) calls = true ∧
    run (initialStore c1 u1 c2 u2) calls = .ok s

/-- The discipline of a client that never hands the store a record it holds
under another id and never exhausts the ids: the pointer passed to
`UpdateProduct(id, p)` is not held by `productList`, or it points to a record
whose id is `id` already; and the addition in `getNextID` does not
overflow. -/
def Call.isolated (s : Store) : Call → Bool
  | .update id p => decide (p ∈ s.productList → (s.heap p).ID = id)
  | .add _ =>
    match s.productList.getLast? with
    | some lp => decide (wrapInt ((s.heap lp).ID + 1) = (s.heap lp).ID + 1)
    | none => true
  | _ => true

/-- Every call of the sequence, at the state it is made in, keeps the
discipline `Call.isolated`. -/
def isolatedCalls (s : Store) : List Call → Bool
  | [] => true
  | c :: cs =>
    c.isolated s &&
      match step s c with
      | .ok s' => isolatedCalls s' cs
      | .error _ => true

/-- A state reachable by a client that keeps the discipline
`Call.isolated`. -/
def ReachableIsolated (s : Store) : Prop :=
  ∃ c1 u1 c2 u2 calls, validCalls (initialStore c1 u1 c2 u2) calls = true ∧
    isolatedCalls (initialStore c1 u1 c2 u2) calls = true ∧
    run (initialStore c1 u1 c2 u2) calls = .ok s

/-- The ids increase strictly along the slice. -/
def IdsIncreasing (l : List Product) : Prop :=
  (l.map Product.ID).Pairwise (fun a b => a < b)

/-! ## Validation -/

/-- One item of a pattern of the package `regexp`: a literal character, or a
character range repeated one or more times, `[lo-hi]+`.  The pattern of
`validateSKU` is a sequence of such items. -/
inductive Atom where
  | lit (c : Char)
  | plusRange (lo hi : Char)
  deriving DecidableEq, Repr

/-- The item `[lo-hi]+` followed by the rest of the pattern, `k`: the number
of characters of the leftmost-first match at the head of the input.  The
repetition is greedy: a longer run is tried before the rest of the pattern. -/
def plusLoop (lo hi : Char) (k : List Char → Option Nat) : List Char → Option Nat
  | [] => none
  | x :: t =>
    if lo ≤ x ∧ x ≤ hi then
      match plusLoop lo hi k t with
      | some n => some (n + 1)
      | none => (k t).map (· + 1)
    else none

/-- The number of characters of the leftmost-first match of the pattern at
the head of the input, if there is one. -/
def matchAtoms : List Atom → List Char → Option Nat
  | [] => fun _ => some 0
  | .lit c :: r => fun s =>
    match s with
    | [] => none
    | x :: t => if x = c then (matchAtoms r t).map (· + 1) else none
  | .plusRange lo hi :: r => fun s => plusLoop lo hi (matchAtoms r) s

/-- The scan of `FindAllString(s, -1)` over the input: `skip` counts the
characters still covered by the last match, which no later match may
overlap.  (The matches of the pattern of `validateSKU` are never empty.) -/
def findAllFrom (pat : List Atom) : List Char → Nat → List (List Char)
  | [], _ => []
  | _ :: t, skip + 1 => findAllFrom pat t skip
  | x :: t, 0 =>
    match matchAtoms pat (x :: t) with
    | some n => (x :: t).take n :: findAllFrom pat t (n - 1)
    | none => findAllFrom pat t 0

/-- The library method `(*Regexp).FindAllString(s, -1)`: all successive
non-overlapping matches, leftmost first. -/
def FindAllString (pat : List Atom) (s : String) : List String :=
  (findAllFrom pat s.data 0).map String.mk

/-- The compiled pattern `[a-z]+-[a-z]+-[a-z]+`, the local `re` of
`validateSKU`. -/
def re : List Atom :=
  [.plusRange 'a' 'z', .lit '-', .plusRange 'a' 'z', .lit '-', .plusRange 'a' 'z']

/-- The function `validateSKU`, on the string value of the field. -/
def validateSKU (field : String) : Bool :=
  let found := FindAllString re field
  if found.length ≠ 1 then false
  else true

/-- One entry of the library's `ValidationErrors`: the struct field and the
tag that failed. -/
structure FieldError where
  Field : String
  Tag : String
  deriving DecidableEq, Repr

/-- The tags of one struct field, run in the order written; the first tag
that fails is reported and the tags after it are not run. -/
def fieldErrors (field : String) : List (String × Bool) → List FieldError
  | [] => []
  | (tag, ok) :: rest => if ok then fieldErrors field rest else [⟨field, tag⟩]

/-- The method `Validate`: `validate.Struct(p)` with the tags of `Product`,
`required` on `Name`, `gt=0` on `Price` and `required,sku` on `SKU`.  The
result is `none` for a nil error and the list of field errors otherwise. -/
def Product.Validate (p : Product) : Option (List FieldError) :=
  let errs :=
    fieldErrors "Name" [("required", decide (p.Name ≠ ""))] ++
    fieldErrors "Price" [("gt", decide (p.Price > 0))] ++
    fieldErrors "SKU" [("required", decide (p.SKU ≠ "")), ("sku", validateSKU p.SKU)]
  if errs.length > 0 then some errs else none

/-- The shape `lowercase-letters "-" lowercase-letters "-" lowercase-letters`
of a whole string, each segment non-empty. -/
def IsSKUShape (s : String) : Prop :=
  ∃ a b c : List Char, a ≠ [] ∧ b ≠ [] ∧ c ≠ [] ∧
    (∀ x ∈ a, 'a' ≤ x ∧ x ≤ 'z') ∧ (∀ x ∈ b, 'a' ≤ x ∧ x ≤ 'z') ∧
    (∀ x ∈ c, 'a' ≤ x ∧ x ≤ 'z') ∧
    s.data = a ++ '-' :: (b ++ '-' :: c)

/-! ## Sample data for the concrete instances -/

/-- The state at start-up with the clock readings "a", "b", "c", "d". -/
def seeded : Store := initialStore "a" "b" "c" "d"

/-- A product as a client would send it: the id is not set. -/
def mocha : Product :=
  { ID := 0
    Name := "Mocha"
    Description := "Chocolate coffee"
    Price := 3
    SKU := "moc-ha-cof"
    CreatedOn := ""
    UpdatedOn := ""
    DeletedOn := "" }

/-- A product carrying an id of its own. -/
def flatWhite : Product :=
  { ID := 1
    Name := "Flat white"
    Description := ""
    Price := 2
    SKU := "fla-tw-hite"
    CreatedOn := ""
    UpdatedOn := ""
    DeletedOn := "" }

/-- The state after the calls, from `seeded` (or `seeded` if a call
panics). -/
def after (calls : List Call) : Store :=
  match run seeded calls with
  | .ok s => s
  | .error _ => seeded

/-- A client adds a product, declares `p`, and passes `&p` to two successful
calls of `UpdateProduct`, `UpdateProduct(3, &p)` and `UpdateProduct(1, &p)`. -/
def reusedPointer : List Call :=
  [.add mocha, .alloc flatWhite, .update 3 3, .update 1 3]

/-- A client declares `p` and passes `&p` to two successful calls of
`UpdateProduct`, `UpdateProduct(1, &p)` and `UpdateProduct(2, &p)`. -/
def samePointerTwice : List Call :=
  [.alloc flatWhite, .update 1 2, .update 2 2]

/-- A client that passes to `UpdateProduct` a product it has just declared,
or the pointer to the record with the very id it updates. -/
def tidyClient : List Call :=
  [.add mocha, .delete 2, .alloc flatWhite, .update 1 3, .update 3 2]

/-- A store whose only record carries the largest `int`. -/
def maxStore : Store :=
  { heap := fun _ => { flatWhite with ID := 9223372036854775807 }
    next := 1
    productList := [0] }

/-! ## Slices -/

theorem getElem?_append_cons {α : Type} (pre : List α) (x : α) (post : List α) :
    (pre ++ x :: post)[pre.length]? = some x := by
  induction pre with
  | nil => simp
  | cons a t ih => simpa using ih

theorem index_append_cons {α : Type} (pre : List α) (x : α) (post : List α) :
    index (pre ++ x :: post) (pre.length : Int) = .ok x := by
  have h0 : (0 : Int) ≤ (pre.length : Int) := by omega
  simp only [index, h0, if_true, Int.toNat_ofNat, getElem?_append_cons]

theorem setIndex_append_cons {α : Type} (pre : List α) (x v : α) (post : List α) :
    setIndex (pre ++ x :: post) (pre.length : Int) v = .ok (pre ++ v :: post) := by
  have hlt : (pre.length : Int) < ((pre ++ x :: post).length : Int) := by
    simp only [List.length_append, List.length_cons]
    omega
  simp [setIndex, hlt]

theorem sliceTo_append_cons {α : Type} (pre : List α) (x : α) (post : List α) :
    sliceTo (pre ++ x :: post) (pre.length : Int) = .ok pre := by
  have hle : (pre.length : Int) ≤ ((pre ++ x :: post).length : Int) := by
    simp only [List.length_append, List.length_cons]
    omega
  have h0 : (0 : Int) ≤ (pre.length : Int) := by omega
  simp only [sliceTo, h0, hle, and_self, if_true, Int.toNat_ofNat]
  simp

theorem sliceFrom_append_cons {α : Type} (pre : List α) (x : α) (post : List α) :
    sliceFrom (pre ++ x :: post) ((pre.length : Int) + 1) = .ok post := by
  have hle : (pre.length : Int) + 1 ≤ ((pre ++ x :: post).length : Int) := by
    simp only [List.length_append, List.length_cons]
    omega
  have h0 : (0 : Int) ≤ (pre.length : Int) + 1 := by omega
  have hn : ((pre.length : Int) + 1).toNat = pre.length + 1 := by omega
  simp only [sliceFrom, h0, hle, and_self, if_true, hn]
  simp

/-! ## Memory -/

theorem write_same (heap : Ptr → Product) (a : Ptr) (v : Product) :
    write heap a v a = v := by
  simp [write]

theorem write_other (heap : Ptr → Product) (a b : Ptr) (v : Product) (h : b ≠ a) :
    write heap a v b = heap b := by
  simp [write, h]

theorem map_write_of_not_mem (heap : Ptr → Product) (a : Ptr) (v : Product)
    (l : List Ptr) (h : a ∉ l) : l.map (write heap a v) = l.map heap := by
  apply List.map_congr_left
  intro b hb
  exact write_other heap a b v (fun hba => h (hba ▸ hb))

theorem withID_eq (q : Product) (id : Int) (h : q.ID = id) :
    ({ q with ID := id } : Product) = q := by
  cases q
  simp only [Product.mk.injEq, and_self, and_true]
  exact h.symm

/-- Writing the id `id` through `p` changes no record that already carries
it. -/
theorem write_agree (heap : Ptr → Product) (p : Ptr) (id : Int) (a : Ptr)
    (h : a = p → (heap p).ID = id) :
    write heap p { heap p with ID := id } a = heap a := by
  by_cases hap : a = p
  · subst hap
    rw [write_same]
    exact withID_eq _ id (h rfl)
  · exact write_other _ _ _ _ hap

theorem map_write_agree (heap : Ptr → Product) (p : Ptr) (id : Int) (l : List Ptr)
    (h : p ∈ l → (heap p).ID = id) :
    l.map (write heap p { heap p with ID := id }) = l.map heap := by
  apply List.map_congr_left
  intro a ha
  exact write_agree heap p id a (fun hap => h (hap ▸ ha))

theorem lt_bound_of_mem (l : List Ptr) (a : Ptr) (h : a ∈ l) : a < bound l := by
  induction l with
  | nil => cases h
  | cons b t ih =>
    rcases List.mem_cons.mp h with rfl | h
    · exact lt_max_of_lt_left (Nat.lt_succ_self a)
    · exact lt_max_of_lt_right (ih h)

theorem fresh_not_mem (s : Store) : s.fresh ∉ s.productList := by
  intro h
  have h1 : s.fresh < bound s.productList := lt_bound_of_mem _ _ h
  have h2 : bound s.productList ≤ s.fresh := le_max_right _ _
  exact absurd h1 (not_lt.mpr h2)

theorem wrapInt_of_inRange (x : Int) (h1 : -9223372036854775808 ≤ x)
    (h2 : x ≤ 9223372036854775807) : wrapInt x = x := by
  unfold wrapInt
  omega

/-! ## The linear scan -/

/-- Either no record of the slice carries `id`, or the slice splits at the
first pointer to one that does. -/
theorem split_first (heap : Ptr → Product) (l : List Ptr) (id : Int) :
    (∀ a ∈ l, (heap a).ID ≠ id) ∨
    ∃ pre x post, l = pre ++ x :: post ∧ (∀ a ∈ pre, (heap a).ID ≠ id) ∧
      (heap x).ID = id := by
  induction l with
  | nil => left; simp
  | cons a t ih =>
    by_cases ha : (heap a).ID = id
    · right
      exact ⟨[], a, t, rfl, by simp, ha⟩
    · rcases ih with h | ⟨pre, x, post, hl, hpre, hx⟩
      · left
        intro q hq
        rcases List.mem_cons.mp hq with rfl | hq
        · exact ha
        · exact h q hq
      · right
        refine ⟨a :: pre, x, post, by simp [hl], ?_, hx⟩
        intro q hq
        rcases List.mem_cons.mp hq with rfl | hq
        · exact ha
        · exact hpre q hq

theorem findProductFrom_absent (heap : Ptr → Product) (id : Int) (l : List Ptr)
    (i : Int) (h : ∀ a ∈ l, (heap a).ID ≠ id) :
    findProductFrom heap id l i = (none, -1, some .ErrProductNotFound) := by
  induction l generalizing i with
  | nil => rfl
  | cons a t ih =>
    have ha : (heap a).ID ≠ id := h a (List.mem_cons_self a t)
    simp only [findProductFrom, ha, if_false]
    exact ih (i + 1) (fun q hq => h q (List.mem_cons_of_mem a hq))

theorem findProductFrom_first (heap : Ptr → Product) (id : Int) (pre : List Ptr)
    (x : Ptr) (post : List Ptr) (i : Int) (hpre : ∀ a ∈ pre, (heap a).ID ≠ id)
    (hx : (heap x).ID = id) :
    findProductFrom heap id (pre ++ x :: post) i = (some x, i + pre.length, none) := by
  induction pre generalizing i with
  | nil => simp [findProductFrom, hx]
  | cons a t ih =>
    have ha : (heap a).ID ≠ id := hpre a (List.mem_cons_self a t)
    rw [List.cons_append, findProductFrom, if_neg ha,
      ih (i + 1) (fun q hq => hpre q (List.mem_cons_of_mem a hq))]
    simp only [List.length_cons, Nat.cast_add, Nat.cast_one]
    congr 2
    omega

theorem findProduct_absent (s : Store) (id : Int)
    (h : ∀ a ∈ s.productList, (s.heap a).ID ≠ id) :
    findProduct s id = (none, -1, some .ErrProductNotFound) :=
  findProductFrom_absent s.heap id s.productList 0 h

theorem findProduct_first (s : Store) (id : Int) (pre : List Ptr) (x : Ptr)
    (post : List Ptr) (hl : s.productList = pre ++ x :: post)
    (hpre : ∀ a ∈ pre, (s.heap a).ID ≠ id) (hx : (s.heap x).ID = id) :
    findProduct s id = (some x, (pre.length : Int), none) := by
  unfold findProduct
  rw [hl, findProductFrom_first s.heap id pre x post 0 hpre hx]
  simp

/-- No record of the collection carries `id`: on the records and on the
pointers. -/
theorem records_absent_iff (s : Store) (id : Int) :
    (∀ q ∈ s.records, q.ID ≠ id) ↔ ∀ a ∈ s.productList, (s.heap a).ID ≠ id := by
  unfold Store.records
  constructor
  · intro h a ha
    exact h _ (List.mem_map_of_mem _ ha)
  · intro h q hq
    obtain ⟨a, ha, rfl⟩ := List.mem_map.mp hq
    exact h a ha

theorem records_split (s : Store) (pre : List Ptr) (x : Ptr) (post : List Ptr)
    (hl : s.productList = pre ++ x :: post) :
    s.records = pre.map s.heap ++ s.heap x :: post.map s.heap := by
  simp [Store.records, hl]

theorem mem_map_absent (heap : Ptr → Product) (id : Int) (pre : List Ptr)
    (hpre : ∀ a ∈ pre, (heap a).ID ≠ id) : ∀ q ∈ pre.map heap, q.ID ≠ id := by
  intro q hq
  obtain ⟨a, ha, rfl⟩ := List.mem_map.mp hq
  exact hpre a ha

/-! ## The operations on a slice split at the first match -/

theorem UpdateProduct_absent (s : Store) (id : Int) (p : Ptr)
    (h : ∀ a ∈ s.productList, (s.heap a).ID ≠ id) :
    UpdateProduct s id p = .ok (s, some .ErrProductNotFound) := by
  simp [UpdateProduct, findProduct_absent s id h]

theorem UpdateProduct_first (s : Store) (id : Int) (p : Ptr) (pre : List Ptr)
    (x : Ptr) (post : List Ptr) (hl : s.productList = pre ++ x :: post)
    (hpre : ∀ a ∈ pre, (s.heap a).ID ≠ id) (hx : (s.heap x).ID = id) :
    UpdateProduct s id p =
      .ok ({ s with heap := write s.heap p { s.heap p with ID := id }
                    productList := pre ++ p :: post }, none) := by
  simp only [UpdateProduct, findProduct_first s id pre x post hl hpre hx]
  rw [hl, setIndex_append_cons]
  rfl

theorem DeleteProduct_absent (s : Store) (id : Int)
    (h : ∀ a ∈ s.productList, (s.heap a).ID ≠ id) :
    DeleteProduct s id = .ok (s, some .ErrProductNotFound) := by
  simp [DeleteProduct, findProduct_absent s id h]

theorem DeleteProduct_first (s : Store) (id : Int) (pre : List Ptr)
    (x : Ptr) (post : List Ptr) (hl : s.productList = pre ++ x :: post)
    (hpre : ∀ a ∈ pre, (s.heap a).ID ≠ id) (hx : (s.heap x).ID = id) :
    DeleteProduct s id = .ok ({ s with productList := pre ++ post }, none) := by
  simp only [DeleteProduct, findProduct_first s id pre x post hl hpre hx]
  rw [hl, sliceTo_append_cons, sliceFrom_append_cons]
  rfl

theorem GetProductByID_absent (s : Store) (id : Int)
    (h : ∀ a ∈ s.productList, (s.heap a).ID ≠ id) :
    GetProductByID s id = .ok (none, some .ErrProductNotFound) := by
  simp [GetProductByID, findProduct_absent s id h]

theorem GetProductByID_first (s : Store) (id : Int) (pre : List Ptr)
    (x : Ptr) (post : List Ptr) (hl : s.productList = pre ++ x :: post)
    (hpre : ∀ a ∈ pre, (s.heap a).ID ≠ id) (hx : (s.heap x).ID = id) :
    GetProductByID s id = .ok (some x, none) := by
  simp only [GetProductByID, findProduct_first s id pre x post hl hpre hx]
  rw [hl, index_append_cons]
  rfl

theorem getNextID_concat (s : Store) (init : List Ptr) (last : Ptr)
    (hl : s.productList = init ++ [last]) :
    getNextID s = .ok (wrapInt ((s.heap last).ID + 1)) := by
  have h : (((init ++ [last]).length : Nat) : Int) - 1 = (init.length : Int) := by
    simp
  simp only [getNextID, hl, h, index_append_cons]
  rfl

theorem eq_nil_or_snoc {α : Type} (l : List α) :
    l = [] ∨ ∃ init last, l = init ++ [last] := by
  rcases List.eq_nil_or_concat l with h | ⟨init, last, h⟩
  · exact Or.inl h
  · exact Or.inr ⟨init, last, by rw [h, List.concat_eq_append]⟩

/-- On a slice that ends in the pointer `last`, `AddProduct` returns: a new
record, the argument with the next id, is appended. -/
theorem AddProduct_snoc (s : Store) (init : List Ptr) (last : Ptr) (p : Product)
    (hl : s.productList = init ++ [last]) :
    AddProduct s p =
      .ok { heap := write s.heap s.fresh { p with ID := wrapInt ((s.heap last).ID + 1) }
            next := s.fresh + 1
            productList := s.productList ++ [s.fresh] } := by
  simp only [AddProduct, getNextID_concat s init last hl]
  rfl

/-- The records after `AddProduct` appended the record `v` at a new address. -/
theorem records_append_fresh (s : Store) (v : Product) (n : Ptr) :
    Store.records { heap := write s.heap s.fresh v, next := n,
                    productList := s.productList ++ [s.fresh] } =
      s.records ++ [v] := by
  simp only [Store.records, List.map_append, List.map_cons, List.map_nil, write_same,
    map_write_of_not_mem s.heap s.fresh v s.productList (fresh_not_mem s)]

theorem records_eq_nil_iff (s : Store) : s.records = [] ↔ s.productList = [] := by
  simp [Store.records]

/-! ## UpdateProduct and DeleteProduct: the error path -/

/-- C4. `UpdateProduct(id, p)` returns `ErrProductNotFound` exactly when no
record of the collection carries `id`, and it then leaves the state, the
collection and the memory, as it was. -/
theorem UpdateProduct_notFound_iff (s : Store) (id : Int) (p : Ptr) :
    ∃ s' e, UpdateProduct s id p = .ok (s', e) ∧
      (e = some .ErrProductNotFound ↔ ∀ q ∈ s.records, q.ID ≠ id) ∧
      (e = some .ErrProductNotFound → s' = s ∧ s'.records = s.records) := by
  rcases split_first s.heap s.productList id with habs | ⟨pre, x, post, hl, hpre, hx⟩
  · exact ⟨s, some .ErrProductNotFound, UpdateProduct_absent s id p habs,
      ⟨fun _ => (records_absent_iff s id).mpr habs, fun _ => rfl⟩, fun _ => ⟨rfl, rfl⟩⟩
  · refine ⟨_, none, UpdateProduct_first s id p pre x post hl hpre hx, ⟨?_, ?_⟩, ?_⟩
    · intro h
      cases h
    · intro h
      exact absurd hx ((records_absent_iff s id).mp h x (by simp [hl]))
    · intro h
      cases h

/-- C6. `DeleteProduct(id)` returns `ErrProductNotFound` exactly when no
record of the collection carries `id`, and it then leaves the state, the
collection and the memory, as it was. -/
theorem DeleteProduct_notFound_iff (s : Store) (id : Int) :
    ∃ s' e, DeleteProduct s id = .ok (s', e) ∧
      (e = some .ErrProductNotFound ↔ ∀ q ∈ s.records, q.ID ≠ id) ∧
      (e = some .ErrProductNotFound → s' = s ∧ s'.records = s.records) := by
  rcases split_first s.heap s.productList id with habs | ⟨pre, x, post, hl, hpre, hx⟩
  · exact ⟨s, some .ErrProductNotFound, DeleteProduct_absent s id habs,
      ⟨fun _ => (records_absent_iff s id).mpr habs, fun _ => rfl⟩, fun _ => ⟨rfl, rfl⟩⟩
  · refine ⟨_, none, DeleteProduct_first s id pre x post hl hpre hx, ⟨?_, ?_⟩, ?_⟩
    · intro h
      cases h
    · intro h
      exact absurd hx ((records_absent_iff s id).mp h x (by simp [hl]))
    · intro h
      cases h

/-- C7. When some record carries `id`, `DeleteProduct(id)` succeeds: the
collection splits at the first record `x` with that id, and the new
collection is the records before `x` followed by the records after `x`, each
unchanged and in the same order; the length decreases by one. -/
theorem DeleteProduct_removes_first (s : Store) (id : Int)
    (h : ∃ q ∈ s.records, q.ID = id) :
    ∃ pre x post s', s.records = pre ++ x :: post ∧ (∀ q ∈ pre, q.ID ≠ id) ∧
      x.ID = id ∧
      DeleteProduct s id = .ok (s', none) ∧
      s'.records = pre ++ post ∧
      s'.records = s.records.eraseIdx pre.length ∧
      s'.records.length + 1 = s.records.length ∧
      (∀ j, j < pre.length → s'.records[j]? = s.records[j]?) ∧
      (∀ j, pre.length ≤ j → s'.records[j]? = s.records[j + 1]?) ∧
      s'.heap = s.heap := by
  rcases split_first s.heap s.productList id with habs | ⟨pre, x, post, hl, hpre, hx⟩
  · obtain ⟨q, hq, hqid⟩ := h
    exact absurd hqid ((records_absent_iff s id).mpr habs q hq)
  · have hrec := records_split s pre x post hl
    have hrec' : Store.records { s with productList := pre ++ post } =
        pre.map s.heap ++ post.map s.heap := by
      simp [Store.records]
    refine ⟨pre.map s.heap, s.heap x, post.map s.heap, _, hrec,
      mem_map_absent s.heap id pre hpre, hx,
      DeleteProduct_first s id pre x post hl hpre hx, hrec', ?_, ?_, ?_, ?_, rfl⟩
    · rw [hrec', hrec, List.eraseIdx_append_of_length_le (Nat.le_refl _)]
      simp
    · rw [hrec', hrec]
      simp only [List.length_append, List.length_cons]
      omega
    · intro j hj
      rw [hrec', hrec, List.getElem?_append_left hj, List.getElem?_append_left hj]
    · intro j hj
      have hj1 : (pre.map s.heap).length ≤ j + 1 := Nat.le_succ_of_le hj
      rw [hrec', hrec, List.getElem?_append_right hj, List.getElem?_append_right hj1]
      have hk : j + 1 - (pre.map s.heap).length = (j - (pre.map s.heap).length) + 1 := by
        omega
      rw [hk, List.getElem?_cons_succ]

theorem DeleteProduct_removes_first_witness :
    ∃ pre x post s', seeded.records = pre ++ x :: post ∧ (∀ q ∈ pre, q.ID ≠ 1) ∧
      x.ID = 1 ∧
      DeleteProduct seeded 1 = .ok (s', none) ∧
      s'.records = pre ++ post ∧
      s'.records = seeded.records.eraseIdx pre.length ∧
      s'.records.length + 1 = seeded.records.length ∧
      (∀ j, j < pre.length → s'.records[j]? = seeded.records[j]?) ∧
      (∀ j, pre.length ≤ j → s'.records[j]? = seeded.records[j + 1]?) ∧
      s'.heap = seeded.heap :=
  DeleteProduct_removes_first seeded 1
    ⟨⟨1, "Latte", "Frothy milky coffee", mkRat 10276045 4194304,
      "abc323", "a", "b", ""⟩, by decide, rfl⟩

/-! ## GetProductByID -/

/-- C9. `GetProductByID(id)` returns `ErrProductNotFound`, and no product,
exactly when no record carries `id`; otherwise it returns, without error, a
pointer to the first record in sequence order whose id is `id`.  On the
seeded store the lookup of 2 returns the record named "Espresso" and the
lookup of 42 returns `ErrProductNotFound`. -/
theorem GetProductByID_first_match (s : Store) (id : Int) :
    (∃ r e, GetProductByID s id = .ok (r, e) ∧
      (e = some .ErrProductNotFound ↔ ∀ q ∈ s.records, q.ID ≠ id) ∧
      (e = some .ErrProductNotFound → r = none) ∧
      (e ≠ some .ErrProductNotFound → e = none ∧
        ∃ pre x post, s.records = pre ++ x :: post ∧ (∀ q ∈ pre, q.ID ≠ id) ∧
          x.ID = id ∧ r.map s.heap = some x)) ∧
    (∀ c1 u1 c2 u2, ∃ a x,
      GetProductByID (initialStore c1 u1 c2 u2) 2 = .ok (some a, none) ∧
      (initialStore c1 u1 c2 u2).heap a = x ∧
      x.Name = "Espresso" ∧ (initialStore c1 u1 c2 u2).records[1]? = some x ∧
      (productList c1 u1 c2 u2)[1]? = some x) ∧
    ∀ c1 u1 c2 u2, GetProductByID (initialStore c1 u1 c2 u2) 42 =
      .ok (none, some .ErrProductNotFound) := by
  refine ⟨?_, ?_, fun c1 u1 c2 u2 => rfl⟩
  · rcases split_first s.heap s.productList id with habs | ⟨pre, x, post, hl, hpre, hx⟩
    · exact ⟨none, some .ErrProductNotFound, GetProductByID_absent s id habs,
        ⟨fun _ => (records_absent_iff s id).mpr habs, fun _ => rfl⟩, fun _ => rfl,
        fun h => absurd rfl h⟩
    · refine ⟨some x, none, GetProductByID_first s id pre x post hl hpre hx,
        ⟨?_, ?_⟩, ?_, ?_⟩
      · intro h
        cases h
      · intro h
        exact absurd hx ((records_absent_iff s id).mp h x (by simp [hl]))
      · intro h
        cases h
      · intro _
        exact ⟨rfl, pre.map s.heap, s.heap x, post.map s.heap, records_split s pre x post hl,
          mem_map_absent s.heap id pre hpre, hx, rfl⟩
  · intro c1 u1 c2 u2
    exact ⟨1, _, rfl, rfl, rfl, rfl, rfl⟩

/-! ## Bounds -/

/-- C17. When `findProduct` succeeds, the position it returns is the least
index, within the bounds of the slice, of a record with the id, and the
pointer returned is the one at that position; when it fails it returns no
product and position -1.  The index and slice expressions that the three
callers evaluate at that position are in bounds, and `UpdateProduct`,
`DeleteProduct` and `GetProductByID` never panic. -/
theorem findProduct_position (s : Store) (id : Int) :
    ((findProduct s id = (none, -1, some .ErrProductNotFound) ∧
        ∀ q ∈ s.records, q.ID ≠ id) ∨
      ∃ x pos, findProduct s id = (some x, pos, none) ∧
        0 ≤ pos ∧ pos < s.productList.length ∧ s.productList[pos.toNat]? = some x ∧
        s.records[pos.toNat]? = some (s.heap x) ∧ (s.heap x).ID = id ∧
        (∀ j y, j < pos.toNat → s.records[j]? = some y → y.ID ≠ id) ∧
        index s.productList pos = .ok x ∧
        (∀ v, ∃ l', setIndex s.productList pos v = .ok l') ∧
        (∃ front, sliceTo s.productList pos = .ok front) ∧
        ∃ back, sliceFrom s.productList (pos + 1) = .ok back) ∧
    (∀ p, ∃ r, UpdateProduct s id p = .ok r) ∧
    (∃ r, DeleteProduct s id = .ok r) ∧
    ∃ r, GetProductByID s id = .ok r := by
  rcases split_first s.heap s.productList id with habs | ⟨pre, x, post, hl, hpre, hx⟩
  · exact ⟨Or.inl ⟨findProduct_absent s id habs, (records_absent_iff s id).mpr habs⟩,
      fun p => ⟨_, UpdateProduct_absent s id p habs⟩,
      ⟨_, DeleteProduct_absent s id habs⟩, ⟨_, GetProductByID_absent s id habs⟩⟩
  · have hrec := records_split s pre x post hl
    refine ⟨Or.inr ⟨x, (pre.length : Int), findProduct_first s id pre x post hl hpre hx,
      by omega, ?_, ?_, ?_, hx, ?_, ?_, ?_, ?_, ?_⟩,
      fun p => ⟨_, UpdateProduct_first s id p pre x post hl hpre hx⟩,
      ⟨_, DeleteProduct_first s id pre x post hl hpre hx⟩,
      ⟨_, GetProductByID_first s id pre x post hl hpre hx⟩⟩
    · rw [hl]
      simp only [List.length_append, List.length_cons]
      omega
    · rw [Int.toNat_ofNat, hl]
      exact getElem?_append_cons pre x post
    · rw [Int.toNat_ofNat, hrec]
      have := getElem?_append_cons (pre.map s.heap) (s.heap x) (post.map s.heap)
      simpa using this
    · intro j y hj hy
      rw [Int.toNat_ofNat] at hj
      have hj' : j < (pre.map s.heap).length := by simpa using hj
      rw [hrec, List.getElem?_append_left hj'] at hy
      exact mem_map_absent s.heap id pre hpre y (List.getElem?_mem hy)
    · rw [hl]
      exact index_append_cons pre x post
    · intro v
      rw [hl]
      exact ⟨_, setIndex_append_cons pre x v post⟩
    · rw [hl]
      exact ⟨_, sliceTo_append_cons pre x post⟩
    · rw [hl]
      exact ⟨_, sliceFrom_append_cons pre x post⟩

/-! ## Lookups before and after a write -/

theorem find_congr {α : Type} (f g : α → Bool) (l : List α)
    (h : ∀ a ∈ l, f a = g a) : l.find? f = l.find? g := by
  induction l with
  | nil => rfl
  | cons a t ih =>
    have ha : f a = g a := h a (List.mem_cons_self a t)
    have ht : t.find? f = t.find? g := ih (fun b hb => h b (List.mem_cons_of_mem a hb))
    simp only [List.find?, ha, ht]

/-- The result of `GetProductByID` is fixed by the first pointer to a record
carrying the id, as `List.find?` computes it. -/
theorem GetProductByID_eq_find (s : Store) (id : Int) :
    GetProductByID s id =
      .ok (match s.productList.find? (fun a => decide ((s.heap a).ID = id)) with
        | some x => (some x, none)
        | none => (none, some .ErrProductNotFound)) := by
  rcases split_first s.heap s.productList id with habs | ⟨pre, x, post, hl, hpre, hx⟩
  · have hnone : s.productList.find? (fun a => decide ((s.heap a).ID = id)) = none := by
      rw [List.find?_eq_none]
      intro q hq
      simpa using habs q hq
    rw [GetProductByID_absent s id habs, hnone]
  · have hpn : pre.find? (fun a => decide ((s.heap a).ID = id)) = none := by
      rw [List.find?_eq_none]
      intro q hq
      simpa using hpre q hq
    have hsome : s.productList.find? (fun a => decide ((s.heap a).ID = id)) = some x := by
      rw [hl, List.find?_append, hpn]
      simp [hx]
    rw [GetProductByID_first s id pre x post hl hpre hx, hsome]

/-- Two states in which the first pointer to a record with the id is the
same give the same result of `GetProductByID`. -/
theorem GetProductByID_congr (s s' : Store) (id : Int)
    (h : s'.productList.find? (fun a => decide ((s'.heap a).ID = id)) =
      s.productList.find? (fun a => decide ((s.heap a).ID = id))) :
    GetProductByID s' id = GetProductByID s id := by
  rw [GetProductByID_eq_find, GetProductByID_eq_find, h]

/-- When the lookup returns the same pointer and the records the old slice
points to are unchanged, the caller sees the same record. -/
theorem seen_congr (s s' : Store) (id : Int)
    (hget : GetProductByID s' id = GetProductByID s id)
    (hheap : ∀ a ∈ s.productList, s'.heap a = s.heap a) :
    seen s' (GetProductByID s' id) = seen s (GetProductByID s id) := by
  rw [hget, GetProductByID_eq_find]
  cases hf : s.productList.find? (fun a => decide ((s.heap a).ID = id)) with
  | none => rfl
  | some a =>
    have ha : a ∈ s.productList := List.mem_of_find?_eq_some hf
    simp [seen, Except.map, hheap a ha]

theorem find_cons_true {α : Type} (f : α → Bool) (a : α) (l : List α) (h : f a = true) :
    (a :: l).find? f = some a := by
  simp [List.find?, h]

theorem find_cons_false {α : Type} (f : α → Bool) (a : α) (l : List α) (h : f a = false) :
    (a :: l).find? f = l.find? f := by
  simp [List.find?, h]

/-- After a record with the id is written at `p` and `p` is stored at the
position of the first match, the first pointer to a record with the id is
`p`. -/
theorem find_after_write_same (heap : Ptr → Product) (p : Ptr) (v : Product) (id : Int)
    (pre post : List Ptr) (hv : v.ID = id) (hpre : ∀ a ∈ pre, (heap a).ID ≠ id) :
    (pre ++ p :: post).find? (fun a => decide ((write heap p v a).ID = id)) = some p := by
  have hpid : decide ((write heap p v p).ID = id) = true := by
    rw [write_same]
    simpa using hv
  rw [List.find?_append]
  cases hf : pre.find? (fun a => decide ((write heap p v a).ID = id)) with
  | none =>
    rw [Option.none_or]
    exact find_cons_true _ p post hpid
  | some a =>
    have ha : a ∈ pre := List.mem_of_find?_eq_some hf
    have hfa := List.find?_some hf
    by_cases hap : a = p
    · subst hap
      rfl
    · rw [write_other _ _ _ _ hap] at hfa
      exact absurd (of_decide_eq_true hfa) (hpre a ha)

/-- A write that changes no record of the slice, with the pointer stored in
the place of a record with another id, does not move the first match of
`id`. -/
theorem find_after_write_other (heap : Ptr → Product) (p : Ptr) (v : Product) (id : Int)
    (pre : List Ptr) (x : Ptr) (post : List Ptr) (hv : v.ID ≠ id)
    (hx : (heap x).ID ≠ id) (hpre : ∀ a ∈ pre, write heap p v a = heap a)
    (hpost : ∀ a ∈ post, write heap p v a = heap a) :
    (pre ++ p :: post).find? (fun a => decide ((write heap p v a).ID = id)) =
      (pre ++ x :: post).find? (fun a => decide ((heap a).ID = id)) := by
  have hx' : decide ((heap x).ID = id) = false := by simpa using hx
  have hp' : decide ((write heap p v p).ID = id) = false := by
    rw [write_same]
    simpa using hv
  have hcpre := find_congr (fun a => decide ((write heap p v a).ID = id))
    (fun a => decide ((heap a).ID = id)) pre
    (fun a ha => by simp only [hpre a ha])
  have hcpost := find_congr (fun a => decide ((write heap p v a).ID = id))
    (fun a => decide ((heap a).ID = id)) post
    (fun a ha => by simp only [hpost a ha])
  rw [List.find?_append, List.find?_append,
    find_cons_false (fun a => decide ((heap a).ID = id)) x post hx',
    find_cons_false (fun a => decide ((write heap p v a).ID = id)) p post hp',
    hcpre, hcpost]

/-! ## AddProduct -/

/-- C1, as amended.  On a non-empty collection `AddProduct(p)` returns, and
the collection becomes the old one followed by one record: `p` with its id
replaced by the id of the old last element plus one, computed in `int`.  That
is the integer successor whenever the last id is an `int` below the largest
one, and the smallest `int` when the last id is the largest.  The records
already present keep their positions and the length grows by one. -/
theorem AddProduct_appends (s : Store) (p : Product) (hne : s.records ≠ []) :
    ∃ s', AddProduct s p = .ok s' ∧
      s'.records =
        s.records ++ [{ p with ID := wrapInt ((s.records.getLast hne).ID + 1) }] ∧
      (-9223372036854775808 ≤ (s.records.getLast hne).ID →
        (s.records.getLast hne).ID < 9223372036854775807 →
        wrapInt ((s.records.getLast hne).ID + 1) = (s.records.getLast hne).ID + 1) ∧
      ((s.records.getLast hne).ID = 9223372036854775807 →
        wrapInt ((s.records.getLast hne).ID + 1) = -9223372036854775808) ∧
      s'.records.length = s.records.length + 1 ∧
      ∀ i, i < s.records.length → s'.records[i]? = s.records[i]? := by
  rcases eq_nil_or_snoc s.productList with hnil | ⟨init, last, hl⟩
  · exact absurd ((records_eq_nil_iff s).mpr hnil) hne
  · have hlast : s.records.getLast hne = s.heap last := by
      simp [Store.records, hl]
    have hrec := records_append_fresh s
      { p with ID := wrapInt ((s.heap last).ID + 1) } (s.fresh + 1)
    refine ⟨_, AddProduct_snoc s init last p hl, ?_, ?_, ?_, ?_, ?_⟩
    · rw [hrec, hlast]
    · intro h1 h2
      exact wrapInt_of_inRange _ (by omega) (by omega)
    · intro h
      rw [h]
      decide
    · rw [hrec]
      simp
    · intro i hi
      rw [hrec]
      exact List.getElem?_append_left hi

theorem AddProduct_appends_witness :
    ∃ s', AddProduct seeded mocha = .ok s' ∧
      s'.records =
        seeded.records ++
          [{ mocha with ID := wrapInt ((seeded.records.getLast (by decide)).ID + 1) }] ∧
      (-9223372036854775808 ≤ (seeded.records.getLast (by decide)).ID →
        (seeded.records.getLast (by decide)).ID < 9223372036854775807 →
        wrapInt ((seeded.records.getLast (by decide)).ID + 1) =
          (seeded.records.getLast (by decide)).ID + 1) ∧
      ((seeded.records.getLast (by decide)).ID = 9223372036854775807 →
        wrapInt ((seeded.records.getLast (by decide)).ID + 1) = -9223372036854775808) ∧
      s'.records.length = seeded.records.length + 1 ∧
      ∀ i, i < seeded.records.length → s'.records[i]? = seeded.records[i]? :=
  AddProduct_appends seeded mocha (by decide)

/-- C1 as stated fails where the last id is the largest `int`: the new record
gets the id -9223372036854775808, not 9223372036854775807 + 1. -/
theorem AddProduct_appends_fails_at_largest_id :
    maxStore.records ≠ [] ∧
    maxStore.records.map Product.ID = [9223372036854775807] ∧
    (AddProduct maxStore mocha).map Store.records =
      .ok (maxStore.records ++ [{ mocha with ID := -9223372036854775808 }]) ∧
    (AddProduct maxStore mocha).map Store.records ≠
      .ok (maxStore.records ++ [{ mocha with ID := 9223372036854775807 + 1 }]) := by
  decide

/-- C11. The empty collection is reachable: on the seeded store
`DeleteProduct(1)` and then `DeleteProduct(2)` both succeed and leave no
record.  On the empty collection `getNextID` reads out of range and
`AddProduct` panics; on every non-empty collection the read is in bounds and
`AddProduct` returns. -/
theorem AddProduct_panics_on_empty :
    (∃ s, Reachable s ∧ s.records = []) ∧
    (∀ c1 u1 c2 u2, ∃ s1 s2,
      DeleteProduct (initialStore c1 u1 c2 u2) 1 = .ok (s1, none) ∧
      DeleteProduct s1 2 = .ok (s2, none) ∧ s2.records = []) ∧
    (∀ s, s.records = [] →
      getNextID s = .error .indexOutOfRange ∧
      ∀ p, AddProduct s p = .error .indexOutOfRange) ∧
    ∀ s p, s.records ≠ [] →
      (∃ lp, index s.productList ((s.productList.length : Int) - 1) = .ok lp) ∧
      ∃ s', AddProduct s p = .ok s' := by
  refine ⟨⟨after [.delete 1, .delete 2],
    ⟨"a", "b", "c", "d", [.delete 1, .delete 2], by decide, rfl⟩, by decide⟩, ?_, ?_, ?_⟩
  · intro c1 u1 c2 u2
    exact ⟨_, _, rfl, rfl, rfl⟩
  · intro s hs
    have hnil := (records_eq_nil_iff s).mp hs
    have hnext : getNextID s = .error .indexOutOfRange := by
      simp [getNextID, hnil, index]
    refine ⟨hnext, fun p => ?_⟩
    simp only [AddProduct, hnext]
    rfl
  · intro s p hne
    rcases eq_nil_or_snoc s.productList with hnil | ⟨init, last, hl⟩
    · exact absurd ((records_eq_nil_iff s).mpr hnil) hne
    · refine ⟨⟨last, ?_⟩, ⟨_, AddProduct_snoc s init last p hl⟩⟩
      have h : (((init ++ [last]).length : Nat) : Int) - 1 = (init.length : Int) := by
        simp
      rw [hl, h, index_append_cons]

/-- C19. Ids are reused after deletion: on the seeded store `DeleteProduct(2)`
followed by `AddProduct(p)` stores `p` with id 2, so for a reachable store and
an id present in it, deleting the record with that id and adding a product
gives the new record the same id. -/
theorem AddProduct_reuses_deleted_id :
    (∀ c1 u1 c2 u2 p, ∃ s1 s2,
      DeleteProduct (initialStore c1 u1 c2 u2) 2 = .ok (s1, none) ∧
      AddProduct s1 p = .ok s2 ∧ s2.records = s1.records ++ [{ p with ID := 2 }]) ∧
    ∃ s id s1 s2 p, Reachable s ∧ (∃ q ∈ s.records, q.ID = id) ∧
      DeleteProduct s id = .ok (s1, none) ∧ AddProduct s1 p = .ok s2 ∧
      s2.records.getLast? = some { p with ID := id } := by
  refine ⟨fun c1 u1 c2 u2 p => ⟨_, _, rfl, rfl, rfl⟩, ?_⟩
  exact ⟨seeded, 2, _, _, mocha, ⟨"a", "b", "c", "d", [], rfl, rfl⟩,
    by decide, rfl, rfl, by decide⟩

/-! ## UpdateProduct: the success path -/

/-- C5, as amended.  When some record carries `id` and the pointer `p` is not
already held by the collection for a record with another id,
`UpdateProduct(id, p)` succeeds: the collection splits at the first record `x` with that id, and the new
collection has the record of `p` with its id set to `id` in the place of `x`
(no field of `x` is kept).  The length, the sequence of ids and every other
position are unchanged. -/
theorem UpdateProduct_replaces_first (s : Store) (id : Int) (p : Ptr)
    (h : ∃ q ∈ s.records, q.ID = id) (hp : p ∈ s.productList → (s.heap p).ID = id) :
    ∃ pre x post s', s.records = pre ++ x :: post ∧ (∀ q ∈ pre, q.ID ≠ id) ∧
      x.ID = id ∧
      UpdateProduct s id p = .ok (s', none) ∧
      s'.records = pre ++ { s.heap p with ID := id } :: post ∧
      s'.records.length = s.records.length ∧
      s'.records.map Product.ID = s.records.map Product.ID ∧
      s'.records[pre.length]? = some { s.heap p with ID := id } ∧
      ∀ j, j ≠ pre.length → s'.records[j]? = s.records[j]? := by
  rcases split_first s.heap s.productList id with habs | ⟨pre, x, post, hl, hpre, hx⟩
  · obtain ⟨q, hq, hqid⟩ := h
    exact absurd hqid ((records_absent_iff s id).mpr habs q hq)
  · have hrec := records_split s pre x post hl
    have hppre : p ∈ pre → (s.heap p).ID = id := fun hm =>
      hp (by rw [hl]; exact List.mem_append_left _ hm)
    have hppost : p ∈ post → (s.heap p).ID = id := fun hm =>
      hp (by rw [hl]; exact List.mem_append_right _ (List.mem_cons_of_mem _ hm))
    have hrec' : Store.records
        { s with heap := write s.heap p { s.heap p with ID := id }
                 productList := pre ++ p :: post } =
        pre.map s.heap ++ { s.heap p with ID := id } :: post.map s.heap := by
      simp only [Store.records, List.map_append, List.map_cons, write_same,
        map_write_agree s.heap p id pre hppre, map_write_agree s.heap p id post hppost]
    refine ⟨pre.map s.heap, s.heap x, post.map s.heap, _, hrec,
      mem_map_absent s.heap id pre hpre, hx,
      UpdateProduct_first s id p pre x post hl hpre hx, hrec', ?_, ?_, ?_, ?_⟩
    · rw [hrec', hrec]
      simp
    · rw [hrec', hrec]
      simp [hx]
    · rw [hrec']
      exact getElem?_append_cons _ _ _
    · intro j hj
      rw [hrec', hrec]
      rcases Nat.lt_or_gt_of_ne hj with hlt | hgt
      · rw [List.getElem?_append_left hlt, List.getElem?_append_left hlt]
      · have hle : (pre.map s.heap).length ≤ j := Nat.le_of_lt hgt
        rw [List.getElem?_append_right hle, List.getElem?_append_right hle]
        obtain ⟨k, hk⟩ : ∃ k, j - (pre.map s.heap).length = k + 1 :=
          ⟨j - (pre.map s.heap).length - 1, by omega⟩
        rw [hk, List.getElem?_cons_succ, List.getElem?_cons_succ]

theorem UpdateProduct_replaces_first_witness :
    ∃ pre x post s', (after [.alloc mocha]).records = pre ++ x :: post ∧
      (∀ q ∈ pre, q.ID ≠ 2) ∧ x.ID = 2 ∧
      UpdateProduct (after [.alloc mocha]) 2 2 = .ok (s', none) ∧
      s'.records = pre ++ { (after [.alloc mocha]).heap 2 with ID := 2 } :: post ∧
      s'.records.length = (after [.alloc mocha]).records.length ∧
      s'.records.map Product.ID = (after [.alloc mocha]).records.map Product.ID ∧
      s'.records[pre.length]? = some { (after [.alloc mocha]).heap 2 with ID := 2 } ∧
      ∀ j, j ≠ pre.length → s'.records[j]? = (after [.alloc mocha]).records[j]? :=
  UpdateProduct_replaces_first (after [.alloc mocha]) 2 2
    ⟨⟨2, "Espresso", "Short and string coffee without milk", mkRat 8346665 4194304,
      "xyz323", "c", "d", ""⟩, by decide, rfl⟩ (by decide)

/-- C5 as stated fails when the pointer is already held by the collection for
a record with another id.
On the seeded store the pointer that `GetProductByID(1)` returns, passed to
`UpdateProduct(2, _)`, changes the record at position 0 as well, and the
sequence of ids goes from 1, 2 to 2, 2. -/
theorem UpdateProduct_changes_other_position :
    GetProductByID seeded 1 = .ok (some 0, none) ∧
    seeded.records.map Product.ID = [1, 2] ∧
    (UpdateProduct seeded 2 0).map Prod.snd = .ok none ∧
    (UpdateProduct seeded 2 0).map (fun r => r.1.records.map Product.ID) = .ok [2, 2] ∧
    (UpdateProduct seeded 2 0).map (fun r => r.1.records[0]?) ≠
      .ok (seeded.records[0]?) := by
  decide

/-- C10, as amended.  After a successful `UpdateProduct(id, p)` the call
`GetProductByID(id)` succeeds and returns `p`, whose record is the one `p`
pointed to with its id equal to `id`; and when `p` was not already held by
the collection for a record with another id, every lookup of another id
returns what it returned before the update. -/
theorem UpdateProduct_then_GetProductByID (s s' : Store) (id : Int) (p : Ptr)
    (hu : UpdateProduct s id p = .ok (s', none)) :
    GetProductByID s' id = .ok (some p, none) ∧
    s'.heap p = { s.heap p with ID := id } ∧
    seen s' (GetProductByID s' id) = .ok (some { s.heap p with ID := id }, none) ∧
    ((p ∈ s.productList → (s.heap p).ID = id) → ∀ id', id' ≠ id →
      GetProductByID s' id' = GetProductByID s id' ∧
      seen s' (GetProductByID s' id') = seen s (GetProductByID s id')) := by
  rcases split_first s.heap s.productList id with habs | ⟨pre, x, post, hl, hpre, hx⟩
  · rw [UpdateProduct_absent s id p habs] at hu
    cases hu
  · rw [UpdateProduct_first s id p pre x post hl hpre hx] at hu
    cases hu
    have hheapp : write s.heap p { s.heap p with ID := id } p = { s.heap p with ID := id } :=
      write_same _ _ _
    have hget : GetProductByID
        { s with heap := write s.heap p { s.heap p with ID := id }
                 productList := pre ++ p :: post } id = .ok (some p, none) := by
      rw [GetProductByID_eq_find]
      have hfind := find_after_write_same s.heap p { s.heap p with ID := id } id pre post
        rfl hpre
      simp only [hfind]
    refine ⟨hget, hheapp, ?_, ?_⟩
    · rw [hget]
      simp only [seen, Except.map, Option.map, hheapp]
    · intro hp id' hne
      have hold : ∀ a ∈ s.productList,
          write s.heap p { s.heap p with ID := id } a = s.heap a := by
        intro a ha
        exact write_agree s.heap p id a (fun hap => hp (hap ▸ ha))
      have hg : GetProductByID
          { s with heap := write s.heap p { s.heap p with ID := id }
                   productList := pre ++ p :: post } id' = GetProductByID s id' := by
        apply GetProductByID_congr
        have hfind := find_after_write_other s.heap p { s.heap p with ID := id } id' pre x
          post (fun h => hne h.symm) (by rw [hx]; exact fun h => hne h.symm)
          (fun a ha => hold a (by rw [hl]; exact List.mem_append_left _ ha))
          (fun a ha => hold a
            (by rw [hl]; exact List.mem_append_right _ (List.mem_cons_of_mem _ ha)))
        simp only [hl]
        exact hfind
      exact ⟨hg, seen_congr s _ id' hg hold⟩

theorem UpdateProduct_then_GetProductByID_witness :
    (2 ∈ (after [.alloc mocha]).productList → ((after [.alloc mocha]).heap 2).ID = 2) ∧
    GetProductByID (after [.alloc mocha, .update 2 2]) 2 = .ok (some 2, none) ∧
    (after [.alloc mocha, .update 2 2]).heap 2 =
      { (after [.alloc mocha]).heap 2 with ID := 2 } ∧
    seen (after [.alloc mocha, .update 2 2])
        (GetProductByID (after [.alloc mocha, .update 2 2]) 2) =
      .ok (some { (after [.alloc mocha]).heap 2 with ID := 2 }, none) ∧
    ((2 ∈ (after [.alloc mocha]).productList → ((after [.alloc mocha]).heap 2).ID = 2) →
        ∀ id', id' ≠ 2 →
      GetProductByID (after [.alloc mocha, .update 2 2]) id' =
        GetProductByID (after [.alloc mocha]) id' ∧
      seen (after [.alloc mocha, .update 2 2])
          (GetProductByID (after [.alloc mocha, .update 2 2]) id') =
        seen (after [.alloc mocha]) (GetProductByID (after [.alloc mocha]) id')) :=
  ⟨by decide,
    UpdateProduct_then_GetProductByID (after [.alloc mocha])
      (after [.alloc mocha, .update 2 2]) 2 2 rfl⟩

/-- C10 as stated fails when the pointer is already held by the collection
for a record with another id.
On the seeded store `GetProductByID(1)` returns the record named "Latte";
after `UpdateProduct(2, _)` with that pointer it returns
`ErrProductNotFound`. -/
theorem UpdateProduct_loses_other_id :
    GetProductByID seeded 1 = .ok (some 0, none) ∧
    (seen seeded (GetProductByID seeded 1)).map (fun r => r.1.map Product.Name) =
      .ok (some "Latte") ∧
    (UpdateProduct seeded 2 0).map Prod.snd = .ok none ∧
    (UpdateProduct seeded 2 0).bind (fun r => GetProductByID r.1 1) =
      .ok (none, some .ErrProductNotFound) := by
  decide

/-! ## The store and validity -/

/-- C20. The store does not keep its records valid.  Both seeded records
fail `Validate` with the error of the field `SKU`, tag `sku`: `validateSKU`
finds no match of the pattern in "abc323" and "xyz323".  `AddProduct` and
`UpdateProduct` store the product they are given, whatever `Validate` says
of it: the stored record differs from the argument in the id only and gets
the same verdict from `Validate`. -/
theorem store_keeps_invalid_products :
    (∀ c1 u1 c2 u2, (initialStore c1 u1 c2 u2).records = productList c1 u1 c2 u2 ∧
      ∀ q ∈ productList c1 u1 c2 u2,
        FindAllString re q.SKU = [] ∧ validateSKU q.SKU = false ∧
        q.Validate = some [⟨"SKU", "sku"⟩]) ∧
    (∀ s p, s.records ≠ [] → ∃ n s', AddProduct s p = .ok s' ∧
      s'.records = s.records ++ [{ p with ID := n }] ∧
      ({ p with ID := n } : Product).Validate = p.Validate) ∧
    (∀ s id p, (∃ q ∈ s.records, q.ID = id) →
      ∃ s', UpdateProduct s id p = .ok (s', none) ∧
        { s.heap p with ID := id } ∈ s'.records ∧
        ({ s.heap p with ID := id } : Product).Validate = (s.heap p).Validate) ∧
    ({ mocha with SKU := "abc323" } : Product).Validate = some [⟨"SKU", "sku"⟩] ∧
    (AddProduct seeded { mocha with SKU := "abc323" }).map Store.records =
      .ok (seeded.records ++ [{ mocha with SKU := "abc323", ID := 3 }]) ∧
    (UpdateProduct (after [.alloc { mocha with SKU := "abc323" }]) 1 2).map
        (fun r => r.1.records) =
      .ok ({ mocha with SKU := "abc323", ID := 1 } :: seeded.records.tail) := by
  refine ⟨?_, ?_, ?_, by decide, by decide, by decide⟩
  · intro c1 u1 c2 u2
    refine ⟨rfl, ?_⟩
    intro q hq
    simp only [productList, List.mem_cons, List.mem_singleton, List.not_mem_nil,
      or_false] at hq
    rcases hq with rfl | rfl
    · exact ⟨rfl, rfl, rfl⟩
    · exact ⟨rfl, rfl, rfl⟩
  · intro s p hne
    rcases eq_nil_or_snoc s.productList with hnil | ⟨init, last, hl⟩
    · exact absurd ((records_eq_nil_iff s).mpr hnil) hne
    · exact ⟨_, _, AddProduct_snoc s init last p hl, records_append_fresh s _ _, rfl⟩
  · intro s id p hex
    rcases split_first s.heap s.productList id with habs | ⟨pre, x, post, hl, hpre, hx⟩
    · obtain ⟨q, hq, hqid⟩ := hex
      exact absurd hqid ((records_absent_iff s id).mpr habs q hq)
    · refine ⟨_, UpdateProduct_first s id p pre x post hl hpre hx, ?_, rfl⟩
      simp only [Store.records, List.map_append, List.map_cons, write_same]
      simp

/-! ## What one returning call does to the records -/

theorem IdsIncreasing_concat (l : List Product) (last x : Product)
    (h : IdsIncreasing (l ++ [last])) (hx : x.ID = last.ID + 1) :
    IdsIncreasing ((l ++ [last]) ++ [x]) := by
  unfold IdsIncreasing at *
  rw [List.map_append, List.pairwise_append]
  refine ⟨h, by simp, ?_⟩
  intro a ha b hb
  simp only [List.map_cons, List.map_nil, List.mem_singleton] at hb
  subst hb
  rw [List.map_append, List.pairwise_append] at h
  rw [List.map_append, List.mem_append] at ha
  rcases ha with ha | ha
  · have := h.2.2 a ha last.ID (by simp)
    omega
  · simp only [List.map_cons, List.map_nil, List.mem_singleton] at ha
    omega

theorem le_last_of_IdsIncreasing (init : List Product) (last : Product)
    (h : IdsIncreasing (init ++ [last])) : ∀ q ∈ init ++ [last], q.ID ≤ last.ID := by
  intro q hq
  unfold IdsIncreasing at h
  rw [List.map_append, List.pairwise_append] at h
  rcases List.mem_append.mp hq with hq | hq
  · exact le_of_lt (h.2.2 q.ID (List.mem_map_of_mem _ hq) last.ID (by simp))
  · simp only [List.mem_singleton] at hq
    subst hq
    exact le_refl _

theorem ids_after_first (pre post : List Product) (x : Product)
    (h : IdsIncreasing (pre ++ x :: post)) : ∀ q ∈ post, q.ID ≠ x.ID := by
  intro q hq heq
  unfold IdsIncreasing at h
  rw [List.map_append, List.pairwise_append, List.map_cons, List.pairwise_cons] at h
  have := h.2.1.1 q.ID (List.mem_map_of_mem _ hq)
  omega

theorem records_snoc (s : Store) (init : List Ptr) (last : Ptr)
    (hl : s.productList = init ++ [last]) :
    s.records = init.map s.heap ++ [s.heap last] := by
  simp [Store.records, hl]

/-- A step that keeps the discipline keeps the ids strictly increasing. -/
theorem IdsIncreasing_step (s : Store) (c : Call) (s' : Store)
    (hinc : IdsIncreasing s.records) (hiso : c.isolated s = true)
    (h : step s c = .ok s') : IdsIncreasing s'.records := by
  cases c with
  | alloc p =>
    simp only [step, Except.ok.injEq] at h
    subst h
    have : Store.records { s with heap := write s.heap s.fresh p, next := s.fresh + 1 } =
        s.records := map_write_of_not_mem s.heap s.fresh p s.productList (fresh_not_mem s)
    rw [this]
    exact hinc
  | add p =>
    rcases eq_nil_or_snoc s.productList with hnil | ⟨init, last, hl⟩
    · simp [step, AddProduct, getNextID, hnil, index] at h
    · simp only [step, AddProduct_snoc s init last p hl, Except.ok.injEq] at h
      subst h
      have hov : wrapInt ((s.heap last).ID + 1) = (s.heap last).ID + 1 := by
        simpa [Call.isolated, hl] using hiso
      rw [records_append_fresh, records_snoc s init last hl]
      rw [records_snoc s init last hl] at hinc
      exact IdsIncreasing_concat _ _ _ hinc hov
  | update id p =>
    have hp : p ∈ s.productList → (s.heap p).ID = id :=
      of_decide_eq_true hiso
    rcases split_first s.heap s.productList id with habs | ⟨pre, x, post, hl, hpre, hx⟩
    · simp only [step, UpdateProduct_absent s id p habs, Except.map, Except.ok.injEq] at h
      subst h
      exact hinc
    · simp only [step, UpdateProduct_first s id p pre x post hl hpre hx, Except.map,
        Except.ok.injEq] at h
      subst h
      have hppre : p ∈ pre → (s.heap p).ID = id := fun hm =>
        hp (by rw [hl]; exact List.mem_append_left _ hm)
      have hppost : p ∈ post → (s.heap p).ID = id := fun hm =>
        hp (by rw [hl]; exact List.mem_append_right _ (List.mem_cons_of_mem _ hm))
      unfold IdsIncreasing at *
      rw [records_split s pre x post hl] at hinc
      simp only [Store.records, List.map_append, List.map_cons, write_same,
        map_write_agree s.heap p id pre hppre, map_write_agree s.heap p id post hppost]
      simpa [hx] using hinc
  | delete id =>
    rcases split_first s.heap s.productList id with habs | ⟨pre, x, post, hl, hpre, hx⟩
    · simp only [step, DeleteProduct_absent s id habs, Except.map, Except.ok.injEq] at h
      subst h
      exact hinc
    · simp only [step, DeleteProduct_first s id pre x post hl hpre hx, Except.map,
        Except.ok.injEq] at h
      subst h
      unfold IdsIncreasing at *
      rw [records_split s pre x post hl] at hinc
      have hsub : (List.map Product.ID (pre.map s.heap ++ post.map s.heap)).Sublist
          (List.map Product.ID (pre.map s.heap ++ s.heap x :: post.map s.heap)) :=
        (List.Sublist.append (List.Sublist.refl _) (List.sublist_cons_self _ _)).map _
      have hrec : Store.records { s with productList := pre ++ post } =
          pre.map s.heap ++ post.map s.heap := by
        simp [Store.records]
      rw [hrec]
      exact List.Pairwise.sublist hsub hinc

theorem IdsIncreasing_run (calls : List Call) (s s' : Store)
    (hinc : IdsIncreasing s.records) (hiso : isolatedCalls s calls = true)
    (h : run s calls = .ok s') : IdsIncreasing s'.records := by
  induction calls generalizing s with
  | nil =>
    simp only [run, Except.ok.injEq] at h
    subst h
    exact hinc
  | cons c cs ih =>
    cases hs : step s c with
    | error err =>
      simp only [run, hs] at h
      cases h
    | ok next =>
      simp only [run, hs] at h
      simp only [isolatedCalls, hs, Bool.and_eq_true] at hiso
      exact ih next (IdsIncreasing_step s c next hinc hiso.1 hs) hiso.2 h

theorem IdsIncreasing_seed (c1 u1 c2 u2 : String) :
    IdsIncreasing (initialStore c1 u1 c2 u2).records := by
  simp [IdsIncreasing, initialStore, Store.records, productList]

theorem IdsIncreasing_of_ReachableIsolated (s : Store) (h : ReachableIsolated s) :
    IdsIncreasing s.records := by
  obtain ⟨c1, u1, c2, u2, calls, -, hiso, hrun⟩ := h
  exact IdsIncreasing_run calls _ s (IdsIncreasing_seed c1 u1 c2 u2) hiso hrun

/-! ## The ids of the states a disciplined client reaches -/

/-- C2, as amended.  In every non-empty state reached by calls in which each
`UpdateProduct` is given a pointer that the collection does not hold for a
record with another id, and no id addition overflows, `AddProduct` assigns the maximum id present in the
collection plus one; on the seeded store, whose last id is 2, the new product
gets id 3. -/
theorem AddProduct_assigns_max_plus_one (s : Store) (p : Product)
    (hr : ReachableIsolated s) (hne : s.records ≠ [])
    (hov : wrapInt ((s.records.getLast hne).ID + 1) = (s.records.getLast hne).ID + 1) :
    (∃ m s', (∃ q ∈ s.records, q.ID = m) ∧ (∀ q ∈ s.records, q.ID ≤ m) ∧
      AddProduct s p = .ok s' ∧ s'.records = s.records ++ [{ p with ID := m + 1 }]) ∧
    ∀ c1 u1 c2 u2, ∃ s', AddProduct (initialStore c1 u1 c2 u2) p = .ok s' ∧
      s'.records = (initialStore c1 u1 c2 u2).records ++ [{ p with ID := 3 }] := by
  refine ⟨?_, fun c1 u1 c2 u2 => ⟨_, rfl, rfl⟩⟩
  have hinc := IdsIncreasing_of_ReachableIsolated s hr
  rcases eq_nil_or_snoc s.productList with hnil | ⟨init, last, hl⟩
  · exact absurd ((records_eq_nil_iff s).mpr hnil) hne
  · have hrec := records_snoc s init last hl
    have hlast : s.records.getLast hne = s.heap last := by
      simp [hrec]
    rw [hlast] at hov
    refine ⟨(s.heap last).ID, _, ⟨s.heap last, by simp [hrec], rfl⟩, ?_,
      AddProduct_snoc s init last p hl, ?_⟩
    · rw [hrec] at hinc ⊢
      exact le_last_of_IdsIncreasing _ _ hinc
    · rw [records_append_fresh, hov]

theorem AddProduct_assigns_max_plus_one_witness :
    (∃ m s', (∃ q ∈ (after tidyClient).records, q.ID = m) ∧
      (∀ q ∈ (after tidyClient).records, q.ID ≤ m) ∧
      AddProduct (after tidyClient) mocha = .ok s' ∧
      s'.records = (after tidyClient).records ++ [{ mocha with ID := m + 1 }]) ∧
    ∀ c1 u1 c2 u2, ∃ s', AddProduct (initialStore c1 u1 c2 u2) mocha = .ok s' ∧
      s'.records = (initialStore c1 u1 c2 u2).records ++ [{ mocha with ID := 3 }] :=
  AddProduct_assigns_max_plus_one (after tidyClient) mocha
    ⟨"a", "b", "c", "d", tidyClient, by decide, by decide, rfl⟩ (by decide) (by decide)

/-- C2 as stated fails in a state reached by successful calls that pass one
pointer twice: after `AddProduct`, `UpdateProduct(3, &p)` and
`UpdateProduct(1, &p)` the ids are 1, 2, 1, the maximum is 2, and the next
`AddProduct` assigns 2. -/
theorem AddProduct_below_max_plus_one :
    Reachable (after reusedPointer) ∧
    (UpdateProduct (after [.add mocha, .alloc flatWhite]) 3 3).map Prod.snd = .ok none ∧
    (UpdateProduct (after [.add mocha, .alloc flatWhite, .update 3 3]) 1 3).map Prod.snd =
      .ok none ∧
    (after reusedPointer).records.map Product.ID = [1, 2, 1] ∧
    (AddProduct (after reusedPointer) mocha).map (fun s => s.records.map Product.ID) =
      .ok [1, 2, 1, 2] :=
  ⟨⟨"a", "b", "c", "d", reusedPointer, by decide, rfl⟩, by decide, by decide, by decide,
    by decide⟩

/-- C3, as amended.  In every state reached by calls in which each
`UpdateProduct` is given a pointer that the collection does not hold for a
record with another id, and no id addition overflows, no two records carry the same id. -/
theorem Reachable_ids_unique (s : Store) (hr : ReachableIsolated s) :
    (s.records.map Product.ID).Nodup ∧
    ∀ i j (hi : i < s.records.length) (hj : j < s.records.length), i ≠ j →
      s.records[i].ID ≠ s.records[j].ID := by
  have hnd : (s.records.map Product.ID).Nodup :=
    List.Pairwise.imp (fun hab => ne_of_lt hab) (IdsIncreasing_of_ReachableIsolated s hr)
  refine ⟨hnd, ?_⟩
  intro i j hi hj hij heq
  have hi' : i < (s.records.map Product.ID).length := by simpa using hi
  have hj' : j < (s.records.map Product.ID).length := by simpa using hj
  have key : (s.records.map Product.ID)[i] = (s.records.map Product.ID)[j] := by
    simpa using heq
  exact hij ((List.Nodup.getElem_inj_iff hnd).mp key)

theorem Reachable_ids_unique_witness :
    ((after tidyClient).records.map Product.ID).Nodup ∧
    ∀ i j (hi : i < (after tidyClient).records.length)
      (hj : j < (after tidyClient).records.length), i ≠ j →
      (after tidyClient).records[i].ID ≠ (after tidyClient).records[j].ID :=
  Reachable_ids_unique (after tidyClient)
    ⟨"a", "b", "c", "d", tidyClient, by decide, by decide, rfl⟩

/-- C3 as stated fails: a client that declares `p` and calls
`UpdateProduct(1, &p)` and then `UpdateProduct(2, &p)`, both successful,
leaves two records with the id 2. -/
theorem ids_repeat_after_pointer_reuse :
    Reachable (after samePointerTwice) ∧
    (UpdateProduct (after [.alloc flatWhite]) 1 2).map Prod.snd = .ok none ∧
    (UpdateProduct (after [.alloc flatWhite, .update 1 2]) 2 2).map Prod.snd = .ok none ∧
    (after samePointerTwice).records.map Product.ID = [2, 2] ∧
    ¬ ((after samePointerTwice).records.map Product.ID).Nodup :=
  ⟨⟨"a", "b", "c", "d", samePointerTwice, by decide, rfl⟩, by decide, by decide,
    by decide, by decide⟩

/-- C16, as amended.  In every state reached by calls in which each
`UpdateProduct` is given a pointer that the collection does not hold for a
record with another id, and no id addition overflows, the ids increase strictly in sequence order, so the
last record carries the maximum id. -/
theorem Reachable_ids_sorted (s : Store) (hr : ReachableIsolated s) :
    IdsIncreasing s.records ∧
    (∀ i j (hi : i < s.records.length) (hj : j < s.records.length), i < j →
      s.records[i].ID < s.records[j].ID) ∧
    ∀ hne : s.records ≠ [], ∀ q ∈ s.records, q.ID ≤ (s.records.getLast hne).ID := by
  have hinc := IdsIncreasing_of_ReachableIsolated s hr
  refine ⟨hinc, ?_, ?_⟩
  · intro i j hi hj hij
    have hi' : i < (s.records.map Product.ID).length := by simpa using hi
    have hj' : j < (s.records.map Product.ID).length := by simpa using hj
    have h := List.pairwise_iff_getElem.mp hinc i j hi' hj' hij
    simpa using h
  · intro hne q hq
    rcases eq_nil_or_snoc s.records with hnil | ⟨init, last, hl⟩
    · exact absurd hnil hne
    · have hlast : s.records.getLast hne = last := by
        simp [hl]
      rw [hlast]
      rw [hl] at hinc hq
      exact le_last_of_IdsIncreasing init last hinc q hq

theorem Reachable_ids_sorted_witness :
    IdsIncreasing (after tidyClient).records ∧
    (∀ i j (hi : i < (after tidyClient).records.length)
      (hj : j < (after tidyClient).records.length), i < j →
      (after tidyClient).records[i].ID < (after tidyClient).records[j].ID) ∧
    ∀ hne : (after tidyClient).records ≠ [],
      ∀ q ∈ (after tidyClient).records,
        q.ID ≤ ((after tidyClient).records.getLast hne).ID :=
  Reachable_ids_sorted (after tidyClient)
    ⟨"a", "b", "c", "d", tidyClient, by decide, by decide, rfl⟩

/-- C16 as stated fails in a state reached by successful calls that pass one
pointer twice: the ids are 1, 2, 1, so they do not increase and the last
record does not carry the maximum. -/
theorem ids_not_sorted_after_pointer_reuse :
    Reachable (after reusedPointer) ∧
    ¬ IdsIncreasing (after reusedPointer).records ∧
    (after reusedPointer).records.getLast?.map Product.ID = some 1 ∧
    (∃ q ∈ (after reusedPointer).records, q.ID = 2) := by
  refine ⟨⟨"a", "b", "c", "d", reusedPointer, by decide, rfl⟩, ?_, by decide, by decide⟩
  unfold IdsIncreasing
  decide

/-- C18, as amended.  In a non-empty state reached by calls in which each
`UpdateProduct` is given a pointer that the collection does not hold for a
record with another id, and no id addition overflows, `AddProduct(p)` returns and the id it assigns is
carried by no record already present; afterwards the lookup of the new id
returns the record just added and the lookup of every id present before
returns what it returned before. -/
theorem AddProduct_fresh_id (s : Store) (p : Product)
    (hr : ReachableIsolated s) (hne : s.records ≠ [])
    (hov : wrapInt ((s.records.getLast hne).ID + 1) = (s.records.getLast hne).ID + 1) :
    ∃ n s', AddProduct s p = .ok s' ∧ s'.records = s.records ++ [{ p with ID := n }] ∧
      (∀ q ∈ s.records, q.ID ≠ n) ∧
      seen s' (GetProductByID s' n) = .ok (some { p with ID := n }, none) ∧
      ∀ id, (∃ q ∈ s.records, q.ID = id) →
        GetProductByID s' id = GetProductByID s id ∧
        seen s' (GetProductByID s' id) = seen s (GetProductByID s id) := by
  have hinc := IdsIncreasing_of_ReachableIsolated s hr
  rcases eq_nil_or_snoc s.productList with hnil | ⟨init, last, hl⟩
  · exact absurd ((records_eq_nil_iff s).mpr hnil) hne
  · have hrec := records_snoc s init last hl
    have hlast : s.records.getLast hne = s.heap last := by
      simp [hrec]
    rw [hlast] at hov
    have hfresh : ∀ q ∈ s.records, q.ID ≠ (s.heap last).ID + 1 := by
      intro q hq
      rw [hrec] at hinc hq
      have := le_last_of_IdsIncreasing _ _ hinc q hq
      omega
    have hfreshp : ∀ a ∈ s.productList, (s.heap a).ID ≠ (s.heap last).ID + 1 :=
      (records_absent_iff s _).mp hfresh
    have hold : ∀ a ∈ s.productList,
        write s.heap s.fresh { p with ID := wrapInt ((s.heap last).ID + 1) } a = s.heap a :=
      fun a ha => write_other _ _ _ _ (fun h => fresh_not_mem s (h ▸ ha))
    refine ⟨(s.heap last).ID + 1, _, AddProduct_snoc s init last p hl, ?_, hfresh, ?_, ?_⟩
    · rw [records_append_fresh, hov]
    · have hget : GetProductByID
          { heap := write s.heap s.fresh { p with ID := wrapInt ((s.heap last).ID + 1) }
            next := s.fresh + 1
            productList := s.productList ++ [s.fresh] } ((s.heap last).ID + 1) =
          .ok (some s.fresh, none) := by
        apply GetProductByID_first _ _ s.productList s.fresh [] rfl
        · intro a ha
          show (write s.heap s.fresh _ a).ID ≠ _
          rw [hold a ha]
          exact hfreshp a ha
        · show (write s.heap s.fresh _ s.fresh).ID = _
          rw [write_same]
          exact hov
      rw [hget]
      simp only [seen, Except.map, Option.map, write_same, hov]
    · rintro id ⟨q, hq, hqid⟩
      have hg : GetProductByID
          { heap := write s.heap s.fresh { p with ID := wrapInt ((s.heap last).ID + 1) }
            next := s.fresh + 1
            productList := s.productList ++ [s.fresh] } id = GetProductByID s id := by
        apply GetProductByID_congr
        have hc := find_congr
          (fun a => decide ((write s.heap s.fresh
            { p with ID := wrapInt ((s.heap last).ID + 1) } a).ID = id))
          (fun a => decide ((s.heap a).ID = id)) s.productList
          (fun a ha => by simp only [hold a ha])
        obtain ⟨a, ha, rfl⟩ := List.mem_map.mp hq
        have hsome : (s.productList.find? (fun a => decide ((s.heap a).ID = id))).isSome := by
          rw [List.find?_isSome]
          exact ⟨a, ha, by simpa using hqid⟩
        obtain ⟨b, hb⟩ := Option.isSome_iff_exists.mp hsome
        simp only [List.find?_append, hc, hb]
        rfl
      exact ⟨hg, seen_congr s _ id hg hold⟩

theorem AddProduct_fresh_id_witness :
    ∃ n s', AddProduct (after tidyClient) mocha = .ok s' ∧
      s'.records = (after tidyClient).records ++ [{ mocha with ID := n }] ∧
      (∀ q ∈ (after tidyClient).records, q.ID ≠ n) ∧
      seen s' (GetProductByID s' n) = .ok (some { mocha with ID := n }, none) ∧
      ∀ id, (∃ q ∈ (after tidyClient).records, q.ID = id) →
        GetProductByID s' id = GetProductByID (after tidyClient) id ∧
        seen s' (GetProductByID s' id) =
          seen (after tidyClient) (GetProductByID (after tidyClient) id) :=
  AddProduct_fresh_id (after tidyClient) mocha
    ⟨"a", "b", "c", "d", tidyClient, by decide, by decide, rfl⟩ (by decide) (by decide)

/-- C18 as stated fails in a state reached by successful calls that pass one
pointer twice: with the ids 1, 2, 1 `AddProduct` assigns the id 2, which the
second record carries, and the lookup of 2 afterwards returns that second
record, not the one just added. -/
theorem AddProduct_assigns_present_id :
    Reachable (after reusedPointer) ∧
    (after reusedPointer).records ≠ [] ∧
    (∃ q ∈ (after reusedPointer).records, q.ID = 2) ∧
    (AddProduct (after reusedPointer) mocha).map (fun s => s.records.getLast?) =
      .ok (some { mocha with ID := 2 }) ∧
    (AddProduct (after reusedPointer) mocha).bind
        (fun s => (seen s (GetProductByID s 2)).map (fun r => r.1.map Product.Name)) =
      .ok (some "Espresso") :=
  ⟨⟨"a", "b", "c", "d", reusedPointer, by decide, rfl⟩, by decide, by decide, by decide,
    by decide⟩

/-- C8, as amended.  In a state reached by calls in which each
`UpdateProduct` is given a pointer that the collection does not hold for a
record with another id, and no id addition overflows (so ids are unique), after a successful
`DeleteProduct(id)` the call `GetProductByID(id)` returns
`ErrProductNotFound` and no product, every lookup of another id returns what
it returned before, and the records left are exactly the old records whose
id is not `id`. -/
theorem DeleteProduct_then_GetProductByID (s s' : Store) (id : Int)
    (hr : ReachableIsolated s) (hd : DeleteProduct s id = .ok (s', none)) :
    GetProductByID s' id = .ok (none, some .ErrProductNotFound) ∧
    (∀ id', id' ≠ id →
      GetProductByID s' id' = GetProductByID s id' ∧
      seen s' (GetProductByID s' id') = seen s (GetProductByID s id')) ∧
    ∀ q, q ∈ s'.records ↔ q ∈ s.records ∧ q.ID ≠ id := by
  have hinc := IdsIncreasing_of_ReachableIsolated s hr
  rcases split_first s.heap s.productList id with habs | ⟨pre, x, post, hl, hpre, hx⟩
  · rw [DeleteProduct_absent s id habs] at hd
    cases hd
  · rw [DeleteProduct_first s id pre x post hl hpre hx] at hd
    cases hd
    have hrec := records_split s pre x post hl
    rw [hrec] at hinc
    have hpost : ∀ a ∈ post, (s.heap a).ID ≠ id := by
      intro a ha
      rw [← hx]
      exact ids_after_first _ _ _ hinc (s.heap a) (List.mem_map_of_mem _ ha)
    have hall : ∀ a ∈ pre ++ post, (s.heap a).ID ≠ id := by
      intro a ha
      rcases List.mem_append.mp ha with ha | ha
      · exact hpre a ha
      · exact hpost a ha
    refine ⟨GetProductByID_absent _ id hall, ?_, ?_⟩
    · intro id' hne
      have hg : GetProductByID { s with productList := pre ++ post } id' =
          GetProductByID s id' := by
        apply GetProductByID_congr
        have hx' : decide ((s.heap x).ID = id') = false := by
          rw [hx]
          simpa using fun h => hne h.symm
        simp only [hl, List.find?_append]
        rw [find_cons_false (fun a => decide ((s.heap a).ID = id')) x post hx']
      exact ⟨hg, seen_congr s _ id' hg (fun a _ => rfl)⟩
    · intro q
      have hrec' : Store.records { s with productList := pre ++ post } =
          pre.map s.heap ++ post.map s.heap := by
        simp [Store.records]
      rw [hrec', hrec]
      constructor
      · intro hq
        rcases List.mem_append.mp hq with hq | hq
        · exact ⟨List.mem_append_left _ hq, mem_map_absent s.heap id pre hpre q hq⟩
        · exact ⟨List.mem_append_right _ (List.mem_cons_of_mem _ hq),
            mem_map_absent s.heap id post hpost q hq⟩
      · rintro ⟨hq, hqid⟩
        rcases List.mem_append.mp hq with hq | hq
        · exact List.mem_append_left _ hq
        · rcases List.mem_cons.mp hq with rfl | hq
          · exact absurd hx hqid
          · exact List.mem_append_right _ hq

theorem DeleteProduct_then_GetProductByID_witness :
    GetProductByID (after (tidyClient ++ [Call.delete 1])) 1 =
      .ok (none, some .ErrProductNotFound) ∧
    (∀ id', id' ≠ 1 →
      GetProductByID (after (tidyClient ++ [Call.delete 1])) id' =
        GetProductByID (after tidyClient) id' ∧
      seen (after (tidyClient ++ [Call.delete 1]))
          (GetProductByID (after (tidyClient ++ [Call.delete 1])) id') =
        seen (after tidyClient) (GetProductByID (after tidyClient) id')) ∧
    ∀ q, q ∈ (after (tidyClient ++ [Call.delete 1])).records ↔
      q ∈ (after tidyClient).records ∧ q.ID ≠ 1 :=
  DeleteProduct_then_GetProductByID (after tidyClient) (after (tidyClient ++ [Call.delete 1])) 1
    ⟨"a", "b", "c", "d", tidyClient, by decide, by decide, rfl⟩ rfl

/-- C8 as stated fails in a state reached by successful calls that pass one
pointer twice: with the ids 1, 2, 1 a successful `DeleteProduct(1)` removes
the first record only, and `GetProductByID(1)` then returns the other
record with the id 1. -/
theorem DeleteProduct_leaves_same_id :
    Reachable (after reusedPointer) ∧
    (DeleteProduct (after reusedPointer) 1).map Prod.snd = .ok none ∧
    (DeleteProduct (after reusedPointer) 1).map (fun r => r.1.records.map Product.ID) =
      .ok [2, 1] ∧
    (DeleteProduct (after reusedPointer) 1).bind (fun r => GetProductByID r.1 1) =
      .ok (some 3, none) :=
  ⟨⟨"a", "b", "c", "d", reusedPointer, by decide, rfl⟩, by decide, by decide, by decide⟩

/-! ## The pattern of validateSKU -/

/-- A non-empty run of characters of the range, after which the loop cannot
go on, is matched whole when the rest of the pattern matches what follows. -/
theorem plusLoop_run (lo hi : Char) (k : List Char → Option Nat) (a rest : List Char)
    (n : Nat) (ha : a ≠ []) (hall : ∀ x ∈ a, lo ≤ x ∧ x ≤ hi)
    (hrest : plusLoop lo hi k rest = none) (hk : k rest = some n) :
    plusLoop lo hi k (a ++ rest) = some (n + a.length) := by
  induction a with
  | nil => exact absurd rfl ha
  | cons x t ih =>
    have hx : lo ≤ x ∧ x ≤ hi := hall x (List.mem_cons_self x t)
    rcases t with _ | ⟨y, t2⟩
    · simp [plusLoop, hx, hrest, hk]
    · have hrec := ih (by simp) (fun z hz => hall z (List.mem_cons_of_mem x hz))
      rw [List.cons_append, plusLoop, if_pos hx, hrec]
      simp only [List.length_cons]
      rfl

theorem plusLoop_dash (k : List Char → Option Nat) (t : List Char) :
    plusLoop 'a' 'z' k ('-' :: t) = none := by
  have h : ¬ ('a' ≤ '-' ∧ '-' ≤ 'z') := by decide
  rw [plusLoop, if_neg h]

theorem matchAtoms_nil (s : List Char) : matchAtoms [] s = some 0 := rfl

theorem matchAtoms_plusRange (lo hi : Char) (r : List Atom) (s : List Char) :
    matchAtoms (.plusRange lo hi :: r) s = plusLoop lo hi (matchAtoms r) s := rfl

theorem matchAtoms_lit_cons (c : Char) (r : List Atom) (t : List Char) :
    matchAtoms (.lit c :: r) (c :: t) = (matchAtoms r t).map (· + 1) := by
  simp [matchAtoms]

/-- On a string of the three-segment shape the pattern matches, at its head,
the whole string. -/
theorem matchAtoms_re_shape (a b c : List Char) (ha : a ≠ []) (hb : b ≠ []) (hc : c ≠ [])
    (hal : ∀ x ∈ a, 'a' ≤ x ∧ x ≤ 'z') (hbl : ∀ x ∈ b, 'a' ≤ x ∧ x ≤ 'z')
    (hcl : ∀ x ∈ c, 'a' ≤ x ∧ x ≤ 'z') :
    matchAtoms re (a ++ '-' :: (b ++ '-' :: c)) =
      some ((a ++ '-' :: (b ++ '-' :: c)).length) := by
  have h3 : matchAtoms [.plusRange 'a' 'z'] c = some (0 + c.length) := by
    have h := plusLoop_run 'a' 'z' (matchAtoms []) c [] 0 hc hcl rfl rfl
    rw [List.append_nil] at h
    rw [matchAtoms_plusRange, h]
  have h2 : matchAtoms [.lit '-', .plusRange 'a' 'z'] ('-' :: c) =
      some (0 + c.length + 1) := by
    rw [matchAtoms_lit_cons, h3]
    rfl
  have h1 : matchAtoms [.plusRange 'a' 'z', .lit '-', .plusRange 'a' 'z'] (b ++ '-' :: c) =
      some (0 + c.length + 1 + b.length) := by
    rw [matchAtoms_plusRange]
    exact plusLoop_run 'a' 'z' _ b ('-' :: c) _ hb hbl (plusLoop_dash _ c) h2
  have h0 : matchAtoms [.lit '-', .plusRange 'a' 'z', .lit '-', .plusRange 'a' 'z']
      ('-' :: (b ++ '-' :: c)) = some (0 + c.length + 1 + b.length + 1) := by
    rw [matchAtoms_lit_cons, h1]
    rfl
  have h := plusLoop_run 'a' 'z' _ a ('-' :: (b ++ '-' :: c)) _ ha hal
    (plusLoop_dash _ _) h0
  rw [re, matchAtoms_plusRange, h]
  simp only [List.length_append, List.length_cons]
  congr 1
  omega

/-- No match starts inside the stretch covered by the last match. -/
theorem findAllFrom_covered (pat : List Atom) (t : List Char) (skip : Nat)
    (h : t.length ≤ skip) : findAllFrom pat t skip = [] := by
  induction t generalizing skip with
  | nil => rfl
  | cons x t ih =>
    cases skip with
    | zero => simp at h
    | succ k =>
      rw [findAllFrom]
      exact ih k (by simpa using h)

theorem FindAllString_re_shape (s : String) (hs : IsSKUShape s) :
    FindAllString re s = [s] := by
  obtain ⟨a, b, c, ha, hb, hc, hal, hbl, hcl, heq⟩ := hs
  have hm := matchAtoms_re_shape a b c ha hb hc hal hbl hcl
  rw [← heq] at hm
  rcases hd : s.data with _ | ⟨x, t⟩
  · rw [hd] at heq
    cases a with
    | nil => exact absurd rfl ha
    | cons y u => simp at heq
  · rw [hd] at hm
    have hfind : findAllFrom re (x :: t) 0 = [x :: t] := by
      rw [findAllFrom, hm]
      simp only [List.take_length]
      rw [findAllFrom_covered re t _ (by simp)]
    simp only [FindAllString, hd, hfind, List.map_cons, List.map_nil]
    congr 1
    rw [← hd]

theorem IsSKUShape_ne_empty (s : String) (hs : IsSKUShape s) : s ≠ "" := by
  obtain ⟨a, b, c, ha, -, -, -, -, -, heq⟩ := hs
  intro h
  rw [h] at heq
  cases a with
  | nil => exact ha rfl
  | cons y u => simp at heq

/-! ## Validate -/

/-- C12. A product with a non-empty name, a price above 0 and a sku that is,
as a whole string, of the three-segment lowercase shape passes `Validate`;
`validateSKU` finds exactly one match of the pattern in such a sku, the sku
itself. -/
theorem Validate_ok_of_valid (p : Product) (hn : p.Name ≠ "") (hp : p.Price > 0)
    (hs : IsSKUShape p.SKU) :
    p.Validate = none ∧ (FindAllString re p.SKU).length = 1 ∧
      FindAllString re p.SKU = [p.SKU] ∧ validateSKU p.SKU = true := by
  have hfind := FindAllString_re_shape p.SKU hs
  have hsku : validateSKU p.SKU = true := by simp [validateSKU, hfind]
  have hne := IsSKUShape_ne_empty p.SKU hs
  refine ⟨?_, by rw [hfind]; rfl, hfind, hsku⟩
  simp [Product.Validate, fieldErrors, hn, hp, hne, hsku]

theorem Validate_ok_of_valid_witness :
    mocha.Validate = none ∧ (FindAllString re mocha.SKU).length = 1 ∧
      FindAllString re mocha.SKU = [mocha.SKU] ∧ validateSKU mocha.SKU = true :=
  Validate_ok_of_valid mocha (by decide) (by decide)
    ⟨['m', 'o', 'c'], ['h', 'a'], ['c', 'o', 'f'], by decide, by decide, by decide,
      by decide, by decide, by decide, by decide⟩

/-- C13, at the failing input.  The sku "1abc-def-ghi" is not of the
three-segment shape as a whole string, yet `validateSKU` accepts it, since the
pattern is not anchored and has exactly one match inside it, and `Validate`
reports no violation.  The examples "abc123" and "AB-CD-EF" are rejected. -/
theorem validateSKU_accepts_extra_characters :
    ¬ IsSKUShape "1abc-def-ghi" ∧
    FindAllString re "1abc-def-ghi" = ["abc-def-ghi"] ∧
    validateSKU "1abc-def-ghi" = true ∧
    ({ mocha with SKU := "1abc-def-ghi" } : Product).Validate = none ∧
    validateSKU "abc123" = false ∧ validateSKU "AB-CD-EF" = false := by
  refine ⟨?_, by decide, by decide, by decide, by decide, by decide⟩
  rintro ⟨a, b, c, ha, -, -, hal, -, -, heq⟩
  cases a with
  | nil => exact ha rfl
  | cons y u =>
    have hy : y = '1' := by
      have h := congrArg List.head? heq
      simpa using h.symm
    have := hal y (List.mem_cons_self y u)
    rw [hy] at this
    exact absurd this (by decide)

/-- C14. A product whose price is at most 0 fails `Validate`, and the errors
include the one of the field `Price`, with the tag `gt`. -/
theorem Validate_price_violation (p : Product) (hp : p.Price ≤ 0) :
    ∃ errs, p.Validate = some errs ∧ (⟨"Price", "gt"⟩ : FieldError) ∈ errs := by
  have hnot : ¬ p.Price > 0 := not_lt.mpr hp
  by_cases hn : p.Name = "" <;> by_cases hs : p.SKU = "" <;>
    cases hv : validateSKU p.SKU <;>
    simp [Product.Validate, fieldErrors, hnot, hn, hs, hv]

theorem Validate_price_violation_witness :
    ∃ errs, ({ mocha with Price := -1 } : Product).Validate = some errs ∧
      (⟨"Price", "gt"⟩ : FieldError) ∈ errs :=
  Validate_price_violation { mocha with Price := -1 } (by decide)

/-- What `Validate` reports, tag by tag: one entry for each of `Name`,
`Price` and `SKU` whose first failing tag is the one named, and success
exactly when no tag fails.  The tag `sku` is the verdict of `validateSKU`. -/
theorem Validate_errors_by_tag (p : Product) :
    (∀ e, (∃ errs, p.Validate = some errs ∧ e ∈ errs) ↔
      (e = ⟨"Name", "required"⟩ ∧ p.Name = "") ∨
      (e = ⟨"Price", "gt"⟩ ∧ ¬ p.Price > 0) ∨
      (e = ⟨"SKU", "required"⟩ ∧ p.SKU = "") ∨
      (e = ⟨"SKU", "sku"⟩ ∧ p.SKU ≠ "" ∧ validateSKU p.SKU = false)) ∧
    (p.Validate = none ↔
      p.Name ≠ "" ∧ p.Price > 0 ∧ p.SKU ≠ "" ∧ validateSKU p.SKU = true) := by
  refine ⟨?_, ?_⟩
  · intro e
    by_cases hn : p.Name = "" <;> by_cases hp : p.Price > 0 <;>
      by_cases hs : p.SKU = "" <;> cases hv : validateSKU p.SKU <;>
      simp [Product.Validate, fieldErrors, hn, hp, hs, hv]
  · by_cases hn : p.Name = "" <;> by_cases hp : p.Price > 0 <;>
      by_cases hs : p.SKU = "" <;> cases hv : validateSKU p.SKU <;>
      simp [Product.Validate, fieldErrors, hn, hp, hs, hv]

theorem not_IsSKUShape_of_head (s : String) (c : Char) (t : List Char)
    (hs : s.data = c :: t) (hc : ¬ ('a' ≤ c ∧ c ≤ 'z')) : ¬ IsSKUShape s := by
  rintro ⟨a, b, d, ha, -, -, hal, -, -, heq⟩
  cases a with
  | nil => exact ha rfl
  | cons y u =>
    rw [hs] at heq
    have hy : c = y := by
      have h := congrArg List.head? heq
      simpa using h
    exact hc (hy ▸ hal y (List.mem_cons_self y u))

/-- C15, at the failing input.  `Validate` does report the fields one by one:
with empty name, price 0 and empty sku it returns three entries.  But the sku
"9moc-ha-cof" is not of the three-segment shape as a whole string, and
`Validate` does not list the field `SKU` for it: with empty name and price 0
it returns the entries of `Name` and `Price` only, and with a name and a
positive price it returns success. -/
theorem Validate_misses_sku_violation :
    ¬ IsSKUShape "9moc-ha-cof" ∧
    validateSKU "9moc-ha-cof" = true ∧
    ({ mocha with Name := "", Price := 0, SKU := "9moc-ha-cof" } : Product).Validate =
      some [⟨"Name", "required"⟩, ⟨"Price", "gt"⟩] ∧
    ({ mocha with SKU := "9moc-ha-cof" } : Product).Validate = none ∧
    ({ mocha with Name := "", Price := 0, SKU := "" } : Product).Validate =
      some [⟨"Name", "required"⟩, ⟨"Price", "gt"⟩, ⟨"SKU", "required"⟩] :=
  ⟨not_IsSKUShape_of_head "9moc-ha-cof" '9' _ rfl (by decide), by decide, by decide,
    by decide, by decide⟩

end Data
